import Mathlib

/-!
Verification development for the rfc3987 module (URI/IRI parsing, validation,
composition and relative-reference resolution).

The module's core capability is a regular-expression engine (Python's re /
regex modules): patterns are matched with leftmost preference, alternatives
tried left to right, quantifiers greedy, with backtracking.  We embed that
capability as an explicit enumeration of all matches in exactly the engine's
backtracking preference order (the engine's chosen match is the head of the
enumeration), over an abstract syntax of the regex constructs the module's
patterns use: character classes, concatenation, alternation, greedy star,
named capture groups, the anchors circumflex and dollar (with Python's
semantics: dollar also matches just before a trailing newline) and
single-character lookbehind.

Matching state is a pair of the previous character (for lookbehind and the
circumflex anchor) and the remaining input; captures are accumulated in
completion order, as the engine records them.
-/

namespace RFC

/-- Named-group captures in completion order; a later entry for the same
name supersedes an earlier one, as in the engine's group dictionary. -/
abbrev Caps := List (String × String)

/-- Abstract syntax of the regular-expression constructs used by the module's
patterns.  Greedy option and plus are expressed by `alt`/`cat` with the
standard greedy orderings (see `optRE`, `plusRE`). -/
inductive RE where
  | eps
  | cls (rs : List (Char × Char))
  | cat (a b : RE)
  | alt (a b : RE)
  | star (a : RE)
  | group (n : String) (a : RE)
  | bol
  | eol
  | lookb (rs : List (Char × Char))
deriving Repr, DecidableEq

/-- Character-class membership: `c` lies in one of the ranges. -/
def inRanges (c : Char) : List (Char × Char) → Bool
  | [] => false
  | (a, b) :: rs => (a ≤ c && c ≤ b) || inRanges c rs

/-- One match outcome: previous character after the match, remaining input,
captures made during the match. -/
abbrev MRes := Option Char × List Char × Caps

/-- All matches of a pattern from the state (previous character `p`,
remaining input `r`), in the engine's backtracking preference order: the
engine's actual match is the head of this list.  Greedy star tries the body
first (longest continuations first) and the empty repetition last; the
engine's empty-repetition rule is modelled by demanding progress from each
star iteration (the module's starred subpatterns always consume input).
Python's dollar matches at the end of input or just before a final
newline.  The `fuel` argument only bounds the recursion depth so that the
function is structurally recursive; every recursive call strictly
decreases the pair of remaining length and pattern size, so any fuel of at
least `(r.length + 1) * (sizeOf re + 1)` is never exhausted (soundness
and completeness below, `allMF_sound` and `allMF_complete`, make the
enumeration exact at any such fuel), and the wrapper `allM` supplies such
a fuel. -/
def allMF : Nat → RE → Option Char → List Char → List MRes
  | 0, _, _, _ => []
  | fuel + 1, re, p, r =>
    match re with
    | .eps => [(p, r, [])]
    | .cls rs =>
      match r with
      | [] => []
      | c :: rest => if inRanges c rs then [(some c, rest, [])] else []
    | .cat a b =>
      (allMF fuel a p r).flatMap fun x =>
        match x with
        | (p1, r1, d1) =>
          (allMF fuel b p1 r1).map fun y =>
            match y with
            | (p2, r2, d2) => (p2, r2, d1 ++ d2)
    | .alt a b => allMF fuel a p r ++ allMF fuel b p r
    | .star a =>
      ((allMF fuel a p r).flatMap fun x =>
        match x with
        | (p1, r1, d1) =>
          if r1.length < r.length then
            (allMF fuel (.star a) p1 r1).map fun y =>
              match y with
              | (p2, r2, d2) => (p2, r2, d1 ++ d2)
          else []) ++ [(p, r, [])]
    | .group n a =>
      (allMF fuel a p r).map fun x =>
        match x with
        | (p1, r1, d) =>
          (p1, r1, d ++ [(n, String.mk (r.take (r.length - r1.length)))])
    | .bol => if p.isNone then [(p, r, [])] else []
    | .eol => if r.isEmpty || r = ['\n'] then [(p, r, [])] else []
    | .lookb rs =>
      match p with
      | some c => if inRanges c rs then [(p, r, [])] else []
      | none => []

/-- Structural size of a pattern. -/
def reSize : RE → Nat
  | .eps | .cls _ | .bol | .eol | .lookb _ => 1
  | .cat a b | .alt a b => reSize a + reSize b + 1
  | .star a => reSize a + 1
  | .group _ a => reSize a + 1

/-- A certainly sufficient recursion-depth bound for `allMF`. -/
def fuelN (re : RE) (r : List Char) : Nat := (r.length + 1) * (reSize re + 1)

/-- The match enumeration with its canonical (sufficient) fuel. -/
def allM (re : RE) (p : Option Char) (r : List Char) : List MRes :=
  allMF (fuelN re r) re p r

/-- Greedy option `a?`: try the body first, the empty branch second. -/
def optRE (a : RE) : RE := .alt a .eps

/-- Greedy plus `a+`: one occurrence, then the greedy star. -/
def plusRE (a : RE) : RE := .cat a (.star a)

/-- Single literal character as the one-point class. -/
def litRE (c : Char) : RE := .cls [(c, c)]

/-- Exact repetition `a{n}` as `n`-fold concatenation. -/
def repExact (a : RE) : Nat → RE
  | 0 => .eps
  | n + 1 => .cat a (repExact a n)

/-- Bounded repetition `a{,n}` (greedy: more copies preferred), as nested
greedy options. -/
def repUpTo (a : RE) : Nat → RE
  | 0 => .eps
  | n + 1 => optRE (.cat a (repUpTo a n))

/-- Bounded repetition `a{1,n}` (greedy). -/
def repOneTo (a : RE) (n : Nat) : RE := .cat a (repUpTo a (n - 1))

/-- n-ary alternation `a|b|...`, alternatives preferred left to right. -/
def altList : List RE → RE
  | [] => .eps
  | [a] => a
  | a :: rest => .alt a (altList rest)

/-- Concatenation of a list of pieces. -/
def catList : List RE → RE
  | [] => .eps
  | [a] => a
  | a :: rest => .cat a (catList rest)

/-!
The grammar tables of the module, with the named capture groups installed by
the module-level `patterns = format_patterns(**DEFAULT_GROUP_NAMES)`: each
listed rule is wrapped in a named group, the five path alternatives all under
the single name `path` (respectively `ipath`).  Rule references in the
pattern templates become direct references to the corresponding definitions,
which is exactly the effect of the template expansion.
-/

/-- `scheme = [a-zA-Z][a-zA-Z0-9+.-]*`, captured as group `scheme`. -/
def scheme : RE :=
  .group "scheme" (.cat (.cls [('a', 'z'), ('A', 'Z')])
    (.star (.cls [('a', 'z'), ('A', 'Z'), ('0', '9'), ('+', '+'), ('.', '.'), ('-', '-')])))

/-- `port = [0-9]*`, captured as group `port`. -/
def port : RE := .group "port" (.star (.cls [('0', '9')]))

/-- `unreserved = [a-zA-Z0-9_.~-]` (the spelling `[a-zA-Z0-9._~-]` of the
URI rule group denotes the same class). -/
def unreserved : RE :=
  .cls [('a', 'z'), ('A', 'Z'), ('0', '9'), ('_', '_'), ('.', '.'), ('~', '~'), ('-', '-')]

/-- `sub_delims = [!$&'()*+,;=]`. -/
def sub_delims : RE :=
  .cls [('!', '!'), ('$', '$'), ('&', '&'), ('\'', '\''), ('(', '('), (')', ')'),
        ('*', '*'), ('+', '+'), (',', ','), (';', ';'), ('=', '=')]

/-- `pct_encoded = %[0-9A-F][0-9A-F]`. -/
def pct_encoded : RE :=
  .cat (litRE '%') (.cat (.cls [('0', '9'), ('A', 'F')]) (.cls [('0', '9'), ('A', 'F')]))

/-- `gen_delims = [:/?#[\]@]`. -/
def gen_delims : RE :=
  .cls [(':', ':'), ('/', '/'), ('?', '?'), ('#', '#'), ('[', '['), (']', ']'), ('@', '@')]

/-- `reserved = (?:gen_delims|sub_delims)`. -/
def reserved : RE := .alt gen_delims sub_delims

/-- `h16 = [0-9A-F]{1,4}`. -/
def h16 : RE := repOneTo (.cls [('0', '9'), ('A', 'F')]) 4

/-- `dec_octet = (?:25[0-5]|2[0-4][0-9]|[01]?[0-9][0-9]?)`. -/
def dec_octet : RE :=
  .alt (.cat (litRE '2') (.cat (litRE '5') (.cls [('0', '5')])))
    (.alt (.cat (litRE '2') (.cat (.cls [('0', '4')]) (.cls [('0', '9')])))
      (.cat (optRE (.cls [('0', '1')])) (.cat (.cls [('0', '9')]) (optRE (.cls [('0', '9')])))))

/-- `IPv4address = (?:dec_octet\.){3}dec_octet`, captured as group
`IPv4address`. -/
def IPv4address : RE :=
  .group "IPv4address" (.cat (repExact (.cat dec_octet (litRE '.')) 3) dec_octet)

/-- `ls32 = (?:h16:h16|IPv4address)`. -/
def ls32 : RE := .alt (.cat h16 (.cat (litRE ':') h16)) IPv4address

/-- One `h16:` block of the IPv6 rule. -/
def h16c : RE := .cat h16 (litRE ':')

/-- `IPv6address`, all nine alternation branches with their exact repetition
bounds, captured as group `IPv6address`. -/
def IPv6address : RE :=
  .group "IPv6address" (altList
    [catList [repExact h16c 6, ls32],
     catList [litRE ':', litRE ':', repExact h16c 5, ls32],
     catList [optRE h16, litRE ':', litRE ':', repExact h16c 4, ls32],
     catList [optRE (.cat (optRE h16c) h16), litRE ':', litRE ':', repExact h16c 3, ls32],
     catList [optRE (.cat (repUpTo h16c 2) h16), litRE ':', litRE ':', repExact h16c 2, ls32],
     catList [optRE (.cat (repUpTo h16c 3) h16), litRE ':', litRE ':', h16c, ls32],
     catList [optRE (.cat (repUpTo h16c 4) h16), litRE ':', litRE ':', ls32],
     catList [optRE (.cat (repUpTo h16c 5) h16), litRE ':', litRE ':', h16],
     catList [optRE (.cat (repUpTo h16c 6) h16), litRE ':', litRE ':']])

/-- `IPvFuture = v[0-9A-F]+\.(?:unreserved|sub_delims|:)+`, captured as
group `IPvFuture`. -/
def IPvFuture : RE :=
  .group "IPvFuture"
    (.cat (litRE 'v') (.cat (plusRE (.cls [('0', '9'), ('A', 'F')]))
      (.cat (litRE '.') (plusRE (.alt unreserved (.alt sub_delims (litRE ':')))))))

/-- `IP_literal = \[(?:IPv6address|IPvFuture)\]` (no capture group). -/
def IP_literal : RE :=
  .cat (litRE '[') (.cat (.alt IPv6address IPvFuture) (litRE ']'))

/-!  URI-specific rules (RFC 3986 appendix A).  -/

/-- `userinfo = (?:unreserved|pct_encoded|sub_delims|:)*`, group
`userinfo`. -/
def userinfo : RE :=
  .group "userinfo" (.star (.alt unreserved (.alt pct_encoded (.alt sub_delims (litRE ':')))))

/-- `reg_name = (?:unreserved|pct_encoded|sub_delims)*`, group `reg_name`. -/
def reg_name : RE :=
  .group "reg_name" (.star (.alt unreserved (.alt pct_encoded sub_delims)))

/-- `host = (?:IP_literal|IPv4address|reg_name)`, group `host`. -/
def host : RE := .group "host" (.alt IP_literal (.alt IPv4address reg_name))

/-- `authority = (?:userinfo@)?host(?::port)?`, group `authority`. -/
def authority : RE :=
  .group "authority"
    (.cat (optRE (.cat userinfo (litRE '@'))) (.cat host (optRE (.cat (litRE ':') port))))

/-- `pchar = (?:unreserved|pct_encoded|sub_delims|:|@)`. -/
def pchar : RE :=
  .alt unreserved (.alt pct_encoded (.alt sub_delims (.alt (litRE ':') (litRE '@'))))

/-- `segment = pchar*`. -/
def segment : RE := .star pchar

/-- `segment_nz = pchar+`. -/
def segment_nz : RE := plusRE pchar

/-- `segment_nz_nc = (?:unreserved|pct_encoded|sub_delims|@)+`. -/
def segment_nz_nc : RE :=
  plusRE (.alt unreserved (.alt pct_encoded (.alt sub_delims (litRE '@'))))

/-- `path_abempty = (?:/segment)*`, captured under the group name `path`. -/
def path_abempty : RE := .group "path" (.star (.cat (litRE '/') segment))

/-- `path_absolute = /(?:segment_nz(?:/segment)*)?`, group `path`. -/
def path_absolute : RE :=
  .group "path"
    (.cat (litRE '/') (optRE (.cat segment_nz (.star (.cat (litRE '/') segment)))))

/-- `path_noscheme = segment_nz_nc(?:/segment)*`, group `path`. -/
def path_noscheme : RE :=
  .group "path" (.cat segment_nz_nc (.star (.cat (litRE '/') segment)))

/-- `path_rootless = segment_nz(?:/segment)*`, group `path`. -/
def path_rootless : RE :=
  .group "path" (.cat segment_nz (.star (.cat (litRE '/') segment)))

/-- `path_empty` (the empty pattern), group `path`. -/
def path_empty : RE := .group "path" .eps

/-- `path = (?:path_abempty|path_absolute|path_noscheme|path_rootless|path_empty)`;
the rule itself carries no group of its own, but each alternative is one of
the five already-named `path` groups (the multi-branch group name needing
the `regex` module). -/
def path : RE :=
  .alt path_abempty (.alt path_absolute (.alt path_noscheme (.alt path_rootless path_empty)))

/-- `query = (?:pchar|/|\?)*`, group `query`. -/
def query : RE := .group "query" (.star (.alt pchar (.alt (litRE '/') (litRE '?'))))

/-- `fragment = (?:pchar|/|\?)*`, group `fragment`. -/
def fragment : RE := .group "fragment" (.star (.alt pchar (.alt (litRE '/') (litRE '?'))))

/-- `hier_part = (?://authority path_abempty|path_absolute|path_rootless|path_empty)`. -/
def hier_part : RE :=
  .alt (.cat (litRE '/') (.cat (litRE '/') (.cat authority path_abempty)))
    (.alt path_absolute (.alt path_rootless path_empty))

/-- `relative_part`, group `relative_part`. -/
def relative_part : RE :=
  .group "relative_part"
    (.alt (.cat (litRE '/') (.cat (litRE '/') (.cat authority path_abempty)))
      (.alt path_absolute (.alt path_noscheme path_empty)))

/-- `absolute_URI = scheme:hier_part(?:\?query)?`, group `absolute_URI`. -/
def absolute_URI : RE :=
  .group "absolute_URI"
    (.cat scheme (.cat (litRE ':') (.cat hier_part (optRE (.cat (litRE '?') query)))))

/-- `URI = absolute_URI(?:\#fragment)?`, group `URI`. -/
def URI : RE := .group "URI" (.cat absolute_URI (optRE (.cat (litRE '#') fragment)))

/-- `relative_ref = relative_part(?:\?query)?(?:\#fragment)?`, group
`relative_ref`. -/
def relative_ref : RE :=
  .group "relative_ref"
    (.cat relative_part (.cat (optRE (.cat (litRE '?') query))
      (optRE (.cat (litRE '#') fragment))))

/-- `URI_reference = (?:URI|relative_ref)`, group `URI_reference`. -/
def URI_reference : RE := .group "URI_reference" (.alt URI relative_ref)

/-!  IRI-specific rules (RFC 3987 section 2.2).  -/

/-- `ucschar`, the RFC 3987 Unicode ranges. -/
def ucschar : RE :=
  .cls [(Char.ofNat 0xA0, Char.ofNat 0xD7FF), (Char.ofNat 0xF900, Char.ofNat 0xFDCF),
        (Char.ofNat 0xFDF0, Char.ofNat 0xFFEF),
        (Char.ofNat 0x10000, Char.ofNat 0x1FFFD), (Char.ofNat 0x20000, Char.ofNat 0x2FFFD),
        (Char.ofNat 0x30000, Char.ofNat 0x3FFFD), (Char.ofNat 0x40000, Char.ofNat 0x4FFFD),
        (Char.ofNat 0x50000, Char.ofNat 0x5FFFD), (Char.ofNat 0x60000, Char.ofNat 0x6FFFD),
        (Char.ofNat 0x70000, Char.ofNat 0x7FFFD), (Char.ofNat 0x80000, Char.ofNat 0x8FFFD),
        (Char.ofNat 0x90000, Char.ofNat 0x9FFFD), (Char.ofNat 0xA0000, Char.ofNat 0xAFFFD),
        (Char.ofNat 0xB0000, Char.ofNat 0xBFFFD), (Char.ofNat 0xC0000, Char.ofNat 0xCFFFD),
        (Char.ofNat 0xD0000, Char.ofNat 0xDFFFD), (Char.ofNat 0xE1000, Char.ofNat 0xEFFFD)]

/-- `iprivate` ranges. -/
def iprivate : RE :=
  .cls [(Char.ofNat 0xE000, Char.ofNat 0xF8FF), (Char.ofNat 0xF0000, Char.ofNat 0xFFFFD),
        (Char.ofNat 0x100000, Char.ofNat 0x10FFFD)]

/-- `iunreserved = (?:[a-zA-Z0-9._~-]|ucschar)`. -/
def iunreserved : RE :=
  .alt (.cls [('a', 'z'), ('A', 'Z'), ('0', '9'), ('.', '.'), ('_', '_'), ('~', '~'), ('-', '-')])
    ucschar

/-- `ipchar = (?:iunreserved|pct_encoded|sub_delims|:|@)`. -/
def ipchar : RE :=
  .alt iunreserved (.alt pct_encoded (.alt sub_delims (.alt (litRE ':') (litRE '@'))))

/-- `iuserinfo`, group `iuserinfo`. -/
def iuserinfo : RE :=
  .group "iuserinfo" (.star (.alt iunreserved (.alt pct_encoded (.alt sub_delims (litRE ':')))))

/-- `ireg_name`, group `ireg_name`. -/
def ireg_name : RE :=
  .group "ireg_name" (.star (.alt iunreserved (.alt pct_encoded sub_delims)))

/-- `ihost = (?:IP_literal|IPv4address|ireg_name)`, group `ihost`. -/
def ihost : RE := .group "ihost" (.alt IP_literal (.alt IPv4address ireg_name))

/-- `iauthority = (?:iuserinfo@)?ihost(?::port)?`, group `iauthority`. -/
def iauthority : RE :=
  .group "iauthority"
    (.cat (optRE (.cat iuserinfo (litRE '@'))) (.cat ihost (optRE (.cat (litRE ':') port))))

/-- `isegment = ipchar*`. -/
def isegment : RE := .star ipchar

/-- `isegment_nz = ipchar+`. -/
def isegment_nz : RE := plusRE ipchar

/-- `isegment_nz_nc = (?:iunreserved|pct_encoded|sub_delims|@)+`. -/
def isegment_nz_nc : RE :=
  plusRE (.alt iunreserved (.alt pct_encoded (.alt sub_delims (litRE '@'))))

/-- `ipath_abempty = (?:/isegment)*`, group `ipath`. -/
def ipath_abempty : RE := .group "ipath" (.star (.cat (litRE '/') isegment))

/-- `ipath_absolute = /(?:isegment_nz(?:/isegment)*)?`, group `ipath`. -/
def ipath_absolute : RE :=
  .group "ipath"
    (.cat (litRE '/') (optRE (.cat isegment_nz (.star (.cat (litRE '/') isegment)))))

/-- `ipath_noscheme = isegment_nz_nc(?:/isegment)*`, group `ipath`. -/
def ipath_noscheme : RE :=
  .group "ipath" (.cat isegment_nz_nc (.star (.cat (litRE '/') isegment)))

/-- `ipath_rootless = isegment_nz(?:/isegment)*`, group `ipath`. -/
def ipath_rootless : RE :=
  .group "ipath" (.cat isegment_nz (.star (.cat (litRE '/') isegment)))

/-- `ipath_empty`, group `ipath`. -/
def ipath_empty : RE := .group "ipath" .eps

/-- `ipath`, the alternation of the five named `ipath` alternatives. -/
def ipath : RE :=
  .alt ipath_abempty
    (.alt ipath_absolute (.alt ipath_noscheme (.alt ipath_rootless ipath_empty)))

/-- `iquery = (?:ipchar|iprivate|/|\?)*`, group `iquery`. -/
def iquery : RE :=
  .group "iquery" (.star (.alt ipchar (.alt iprivate (.alt (litRE '/') (litRE '?')))))

/-- `ifragment = (?:ipchar|/|\?)*`, group `ifragment`. -/
def ifragment : RE :=
  .group "ifragment" (.star (.alt ipchar (.alt (litRE '/') (litRE '?'))))

/-- `ihier_part`. -/
def ihier_part : RE :=
  .alt (.cat (litRE '/') (.cat (litRE '/') (.cat iauthority ipath_abempty)))
    (.alt ipath_absolute (.alt ipath_rootless ipath_empty))

/-- `irelative_part`, group `irelative_part`. -/
def irelative_part : RE :=
  .group "irelative_part"
    (.alt (.cat (litRE '/') (.cat (litRE '/') (.cat iauthority ipath_abempty)))
      (.alt ipath_absolute (.alt ipath_noscheme ipath_empty)))

/-- `absolute_IRI = scheme:ihier_part(?:\?iquery)?`, group `absolute_IRI`. -/
def absolute_IRI : RE :=
  .group "absolute_IRI"
    (.cat scheme (.cat (litRE ':') (.cat ihier_part (optRE (.cat (litRE '?') iquery)))))

/-- `IRI = absolute_IRI(?:\#ifragment)?`, group `IRI`. -/
def IRI : RE := .group "IRI" (.cat absolute_IRI (optRE (.cat (litRE '#') ifragment)))

/-- `irelative_ref = (?:irelative_part(?:\?iquery)?(?:\#ifragment)?)`,
group `irelative_ref`. -/
def irelative_ref : RE :=
  .group "irelative_ref"
    (.cat irelative_part (.cat (optRE (.cat (litRE '?') iquery))
      (optRE (.cat (litRE '#') ifragment))))

/-- `IRI_reference = (?:IRI|irelative_ref)`, group `IRI_reference`. -/
def IRI_reference : RE := .group "IRI_reference" (.alt IRI irelative_ref)

/-!
Dictionaries.  Python dicts of optional string components are embedded as
association lists in insertion order.  `dGet` is the `.get(k)` method (`None`
for a missing key, conflating a missing key with a stored `None`, exactly as
the callers use it); `dGetItem` is subscription `d[k]`, which raises
`KeyError` on a missing key.  `dSet` is subscript assignment: it overwrites
in place, or appends a new key at the end, preserving insertion order.
-/

/-- Errors raised by the embedded functions. -/
inductive Err where
  | keyError (k : String)
  | notValid (s : String) (rule : String)
  | expectedIRI
  | typeError
deriving Repr, DecidableEq

/-- A Python dict of optional string values, in insertion order. -/
abbrev Dict := List (String × Option String)

/-- `d.get(k)`: `None` for a missing key or a stored `None`. -/
def dGet (d : Dict) (k : String) : Option String :=
  match d with
  | [] => none
  | e :: rest => if e.1 == k then e.2 else dGet rest k

/-- Key presence. -/
def dHas (d : Dict) (k : String) : Bool :=
  match d with
  | [] => false
  | e :: rest => e.1 == k || dHas rest k

/-- `d[k]`: `KeyError` when the key is missing. -/
def dGetItem (d : Dict) (k : String) : Except Err (Option String) :=
  if dHas d k then .ok (dGet d k) else .error (.keyError k)

/-- `d[k] = v`: overwrite the key's entry in place, or append a new entry
at the end (keys are unique, as in a dict). -/
def dSet (d : Dict) (k : String) (v : Option String) : Dict :=
  match d with
  | [] => [(k, v)]
  | e :: rest => if e.1 == k then (k, v) :: rest else e :: dSet rest k v

/-- `_i2u`: fold each IRI-named field into the URI-named field when the
latter is absent (`dic.get(name) is None`), in the source's order. -/
def i2uD (d : Dict) : Dict :=
  [("authority", "iauthority"), ("path", "ipath"),
   ("query", "iquery"), ("fragment", "ifragment")].foldl
    (fun d ni => if (dGet d ni.1).isNone then dSet d ni.1 (dGet d ni.2) else d) d

/-- Truthiness of an optional string: `None` and the empty string are
falsy. -/
def truthyOpt (o : Option String) : Bool :=
  match o with
  | none => false
  | some s => !s.isEmpty

/-!
Parsing.  `parse(string, rule)` matches `'^%(rule)s$'` (with Python's
dollar semantics) and extracts the group dictionary, then applies `_i2u`.
We embed the full-capability engine path (the `regex` module: named groups
usable on several alternation branches), under which every rule of the
pattern table `patterns = format_patterns(**DEFAULT_GROUP_NAMES)` is
supported; a name outside the table raises the `KeyError` of the
`'^%(rule)s$' % patterns` substitution.
-/

/-- Names of all capture groups of a pattern, in opening order. -/
def collectNames : RE → List String
  | .eps | .cls _ | .bol | .eol | .lookb _ => []
  | .cat a b | .alt a b => collectNames a ++ collectNames b
  | .star a => collectNames a
  | .group n a => n :: collectNames a

/-- Deduplication keeping first occurrences. -/
def dedupKeepFirst (l : List String) : List String :=
  (l.foldl (fun acc n => if acc.contains n then acc else acc ++ [n]) [])

/-- The value of the last capture of a group name, `none` when the group
captured nothing. -/
def lastLookup (d : Caps) (n : String) : Option String :=
  ((d.filter (fun e => e.1 == n)).getLast?).map (fun e => e.2)

/-- The group dictionary of a match: every group name of the pattern,
mapped to its captured value or `None`. -/
def groupdictOf (re : RE) (d : Caps) : Dict :=
  (dedupKeepFirst (collectNames re)).map (fun n => (n, lastLookup d n))

/-- The compiled validation pattern `'^%(rule)s$'`. -/
def anchored (re : RE) : RE := .cat .bol (.cat re .eol)

/-- The full pattern table `patterns = format_patterns(**DEFAULT_GROUP_NAMES)`
by rule name: all sixty-one rules of the three rule tables (with the
`_uri_rules` respelling of `unreserved` denoting the same class as the
`_common_rules` one).  The table is a dict — each name appears exactly
once, so the listing order is immaterial to lookup; the ten reference
rules are listed first, then the remaining rules of each table in
declaration order. -/
def ruleList : List (String × RE) :=
  [("IRI_reference", IRI_reference), ("IRI", IRI), ("absolute_IRI", absolute_IRI),
   ("irelative_ref", irelative_ref), ("irelative_part", irelative_part),
   ("URI_reference", URI_reference), ("URI", URI), ("absolute_URI", absolute_URI),
   ("relative_ref", relative_ref), ("relative_part", relative_part),
   ("scheme", scheme), ("port", port),
   ("IP_literal", IP_literal), ("IPv6address", IPv6address), ("ls32", ls32),
   ("h16", h16), ("IPv4address", IPv4address), ("dec_octet", dec_octet),
   ("IPvFuture", IPvFuture),
   ("unreserved", unreserved), ("reserved", reserved), ("pct_encoded", pct_encoded),
   ("gen_delims", gen_delims), ("sub_delims", sub_delims),
   ("hier_part", hier_part), ("authority", authority), ("host", host),
   ("userinfo", userinfo), ("reg_name", reg_name),
   ("path", path), ("path_abempty", path_abempty), ("path_absolute", path_absolute),
   ("path_noscheme", path_noscheme), ("path_rootless", path_rootless),
   ("path_empty", path_empty),
   ("segment", segment), ("segment_nz", segment_nz), ("segment_nz_nc", segment_nz_nc),
   ("query", query), ("fragment", fragment), ("pchar", pchar),
   ("ihier_part", ihier_part), ("iauthority", iauthority), ("iuserinfo", iuserinfo),
   ("ihost", ihost), ("ireg_name", ireg_name),
   ("ipath", ipath), ("ipath_empty", ipath_empty), ("ipath_rootless", ipath_rootless),
   ("ipath_noscheme", ipath_noscheme), ("ipath_absolute", ipath_absolute),
   ("ipath_abempty", ipath_abempty),
   ("isegment_nz_nc", isegment_nz_nc), ("isegment_nz", isegment_nz),
   ("isegment", isegment),
   ("iquery", iquery), ("ifragment", ifragment), ("ipchar", ipchar),
   ("iunreserved", iunreserved), ("iprivate", iprivate), ("ucschar", ucschar)]

/-- `parse(string, rule)`: full anchored match, group extraction, `_i2u`
folding.  A `ValueError` reports a failed match. -/
def parse (s : String) (rule : String) : Except Err Dict :=
  match ruleList.find? (fun e => e.1 == rule) with
  | none => .error (.keyError rule)
  | some e =>
    match (allM (anchored e.2) none s.data).head? with
    | none => .error (.notValid s rule)
    | some (_, _, d) => .ok (i2uD (groupdictOf e.2 d))

/-!
Composition.  `compose` reads its five URI-named parameters.  The source's
`_i2u(locals())` line mutates only the snapshot dictionary returned by
`locals()`: in CPython, writes to that snapshot do not write back into the
function's local variables, so the subsequent reads of `scheme`,
`authority`, `path`, `query` and `fragment` see the original arguments and
the IRI-named keyword arguments have no effect on the result.  `compose`
performs no validation and cannot fail.
-/

/-- `x or ''` on an optional string. -/
def orEmpty (o : Option String) : String :=
  match o with
  | some s => s
  | none => ""

/-- `compose(**kw)`: emit `scheme:`, `//authority`, the path, `?query`,
`#fragment`, each marker controlled by presence (non-`None`), not
truthiness. -/
def compose (kw : Dict) : String :=
  let res := ""
  let res := match dGet kw "scheme" with
    | some s => res ++ s ++ ":"
    | none => res
  let res := match dGet kw "authority" with
    | some a => res ++ "//" ++ a
    | none => res
  let res := res ++ orEmpty (dGet kw "path")
  let res := match dGet kw "query" with
    | some q => res ++ "?" ++ q
    | none => res
  let res := match dGet kw "fragment" with
    | some f => res ++ "#" ++ f
    | none => res
  res

/-!
Dot-segment removal: the two substitution patterns of `resolve`, applied
with the engine's `sub` (global, scanning the original string left to
right, lookbehind judged on the original string) and `subn(..., count=1)`
in a loop.
-/

/-- The previous character at a position of the original input. -/
def prevAt (s : List Char) (i : Nat) : Option Char :=
  if i = 0 then none else s.get? (i - 1)

/-- First match at or after position `i`: the engine scans positions left
to right (including the end-of-input position) and takes the first
backtracking success; returns start and end positions.  The fuel mirrors
the number of remaining scan positions exactly, so it never runs out. -/
def findFromF : Nat → RE → List Char → Nat → Option (Nat × Nat)
  | 0, _, _, _ => none
  | fuel + 1, re, s, i =>
    match (allM re (prevAt s i) (s.drop i)).head? with
    | some (_, rem, _) => some (i, s.length - rem.length)
    | none => if i < s.length then findFromF fuel re s (i + 1) else none

/-- `findFromF` from position `i` with its exact fuel. -/
def findFrom (re : RE) (s : List Char) (i : Nat) : Option (Nat × Nat) :=
  findFromF (s.length + 1 - i) re s i

/-- `pattern.sub(repl, s)` from position `pos`: replace every
non-overlapping match left to right.  (A zero-width match copies one
character and advances, as the engine does; the two patterns used by
`resolve` can never match the empty string.) -/
def subAllF (re : RE) (repl : List Char) (s : List Char) : Nat → Nat → List Char
  | _, 0 => s
  | pos, fuel + 1 =>
    match findFrom re s pos with
    | none => s.drop pos
    | some (i, j) =>
      if pos < j then
        (s.drop pos).take (i - pos) ++ repl ++ subAllF re repl s j fuel
      else
        (s.drop pos).take (i - pos) ++ repl ++ (s.drop i).take 1 ++
          subAllF re repl s (i + 1) fuel

/-- `subAllF` with its sufficient fuel: the scan position strictly
increases with every replacement. -/
def subAllFrom (re : RE) (repl : List Char) (s : List Char) (pos : Nat) : List Char :=
  subAllF re repl s pos (s.length + 1 - pos)

/-- `pattern.subn(repl, s, 1)`: replace the first match only, with its
count. -/
def subn1 (re : RE) (repl : List Char) (s : List Char) : List Char × Nat :=
  match findFrom re s 0 with
  | none => (s, 0)
  | some (i, j) => (s.take i ++ repl ++ s.drop j, 1)

/-- `^\.{1,2}(?:/|$)|(?<=/)\.(?:/|$)` — the first dot-segment pass. -/
def dotSegsRE : RE :=
  .alt (catList [.bol, litRE '.', optRE (litRE '.'), .alt (litRE '/') .eol])
    (catList [.lookb [('/', '/')], litRE '.', .alt (litRE '/') .eol])

/-- `/?%(segment)s/\.{2}(?:/|$)` — the double-dot pop pattern (the
`segment` rule carries no capture group in the pattern table). -/
def twoDotsRE : RE :=
  catList [optRE (litRE '/'), segment, litRE '/', litRE '.', litRE '.',
           .alt (litRE '/') .eol]

/-- The `while c:` loop around `subn(..., 1)`: repeat single replacements
until none applies.  Every match spans at least three characters and is
replaced by one, so each round shrinks the string. -/
def popLoopF (re : RE) : Nat → List Char → List Char
  | 0, s => s
  | fuel + 1, s =>
    match subn1 re ['/'] s with
    | (_, 0) => s
    | (t, _) => popLoopF re fuel t

/-- `popLoopF` with its sufficient fuel: every replacement round removes a
match of at least three characters and inserts one, shrinking the
string. -/
def popLoop (re : RE) (s : List Char) : List Char :=
  popLoopF re (s.length + 1) s

/-- The complete dot-segment cleaning applied to `T['path']`. -/
def removeDotSegments (p : String) : String :=
  String.mk (popLoop twoDotsRE (subAllFrom dotSegsRE [] p.data 0))

/-!
Resolution.  Python objects are modelled with an explicit store of dict
objects; `dict(x)` allocates a fresh copy, `T = R` aliases, and subscript
assignment mutates the store, so the source's aliasing behaviour is
visible.  Bases and references arrive either as strings or as addresses of
caller-owned dict objects.
-/

/-- The store of dict objects; an address is an index. -/
abbrev Store := List Dict

/-- Allocate a fresh dict object. -/
def allocD (st : Store) (d : Dict) : Nat × Store := (st.length, st ++ [d])

/-- Read a dict object. -/
def readD (st : Store) (a : Nat) : Dict := (st.get? a).getD []

/-- Overwrite a dict object. -/
def writeD (st : Store) (a : Nat) (d : Dict) : Store := st.set a d

/-- An argument to `resolve`: a string, or the address of a dict. -/
inductive PyIn where
  | str (s : String)
  | ref (a : Nat)
deriving Repr, DecidableEq

/-- A result of `resolve`: a composed string, or a dict of parts. -/
inductive PyOut where
  | str (s : String)
  | dict (d : Dict)
deriving Repr, DecidableEq

/-- `upToLastSlash s = ''.join(s.rpartition('/')[:2])`: everything up to
and including the last slash, or the empty string without a slash. -/
def upToLastSlashL : List Char → List Char
  | [] => []
  | c :: rest =>
    let r := upToLastSlashL rest
    if r.isEmpty then (if c = '/' then [c] else []) else c :: r

/-- String form of `upToLastSlashL`. -/
def upToLastSlash (s : String) : String := String.mk (upToLastSlashL s.data)

/-- The merge of RFC 3986 section 5.3 as implemented (source lines
460–485), up to but excluding the fragment assignment; `B` and `R` are the
folded base and reference dicts.  Errors are the `KeyError` of a missing
subscript and the `AttributeError`/`TypeError` of `rpartition` on `None`
(modelled as `typeError`). -/
def mergeNoFrag (B R : Dict) : Except Err Dict :=
  match dGetItem B "scheme" with
  | .error e => .error e
  | .ok bs =>
    let t0 := dSet [] "scheme" bs
    match dGetItem R "authority" with
    | .error e => .error e
    | .ok rauth =>
      if rauth.isSome then
        match dGetItem R "path" with
        | .error e => .error e
        | .ok rp =>
          match dGetItem R "query" with
          | .error e => .error e
          | .ok rq => .ok (dSet (dSet (dSet t0 "authority" rauth) "path" rp) "query" rq)
      else
        match dGetItem B "authority" with
        | .error e => .error e
        | .ok bauth =>
          let t1 := dSet t0 "authority" bauth
          match dGetItem R "path" with
          | .error e => .error e
          | .ok rp =>
            if truthyOpt rp then
              let p := orEmpty rp
              let t2res : Except Err Dict :=
                if p.take 1 == "/" then .ok (dSet t1 "path" rp)
                else
                  match dGetItem B "path" with
                  | .error e => .error e
                  | .ok bp =>
                    if bauth.isSome && !(truthyOpt bp) then
                      .ok (dSet t1 "path" (some ("/" ++ p)))
                    else
                      match bp with
                      | none => .error .typeError
                      | some bps => .ok (dSet t1 "path" (some (upToLastSlash bps ++ p)))
              match t2res with
              | .error e => .error e
              | .ok t2 =>
                match dGetItem R "query" with
                | .error e => .error e
                | .ok rq => .ok (dSet t2 "query" rq)
            else
              match dGetItem B "path" with
              | .error e => .error e
              | .ok bp =>
                let t2 := dSet t1 "path" bp
                match dGetItem R "query" with
                | .error e => .error e
                | .ok rq =>
                  if rq.isSome then .ok (dSet t2 "query" rq)
                  else
                    match dGetItem B "query" with
                    | .error e => .error e
                    | .ok bq => .ok (dSet t2 "query" bq)

/-- The target-selection step: `none` means `T = R` (the target aliases the
reference copy), `some T` is the freshly merged dict including the final
`T['fragment'] = R['fragment']`. -/
def mergeBranch (B R : Dict) (strict : Bool) : Except Err (Option Dict) :=
  match dGetItem R "scheme" with
  | .error e => .error e
  | .ok rs =>
    if truthyOpt rs && (strict || !(rs == dGet B "scheme")) then .ok none
    else
      match mergeNoFrag B R with
      | .error e => .error e
      | .ok t =>
        match dGetItem R "fragment" with
        | .error e => .error e
        | .ok rf => .ok (some (dSet t "fragment" rf))

/-- The common tail of `resolve`: clean `T['path']` in place (mutating the
stored object, which in the alias case is the reference copy), then either
return the parts dict or compose it. -/
def finishResolve (st : Store) (tAddr : Nat) (return_parts : Bool) :
    Except Err PyOut × Store :=
  let T := readD st tAddr
  match dGetItem T "path" with
  | .error e => (.error e, st)
  | .ok none => (.error .typeError, st)
  | .ok (some p) =>
    let T2 := dSet T "path" (some (removeDotSegments p))
    let st2 := writeD st tAddr T2
    (if return_parts then .ok (.dict T2) else .ok (.str (compose T2)), st2)

/-- The base-normalisation step of `resolve`: `B = parse(base, 'IRI')` for
a string, else `B = _i2u(dict(base))` (a fresh copy, folded). -/
def baseDictOf (st : Store) (b : PyIn) : Except Err Dict :=
  match b with
  | .str s => parse s "IRI"
  | .ref a => .ok (i2uD (readD st a))

/-- The reference-normalisation step of `resolve`:
`R = parse(uriref, 'IRI_reference')` for a string, else
`R = _i2u(dict(uriref))` (a fresh copy, folded). -/
def refDictOf (st : Store) (r : PyIn) : Except Err Dict :=
  match r with
  | .str s => parse s "IRI_reference"
  | .ref a => .ok (i2uD (readD st a))

/-- `resolve(base, uriref, strict, return_parts)`.  A string base is parsed
against the full `IRI` rule, a dict base is copied and folded; a base whose
scheme is missing or empty raises `ValueError('Expected an IRI (with
scheme), ...')`.  A string reference is parsed against `IRI_reference`, a
dict reference is copied and folded; the copy is a fresh object.  The
caller's dict arguments are never written to. -/
def resolve (st : Store) (base ref : PyIn) (strict return_parts : Bool) :
    Except Err PyOut × Store :=
  match baseDictOf st base with
  | .error e => (.error e, st)
  | .ok B =>
    if !(truthyOpt (dGet B "scheme")) then (.error .expectedIRI, st)
    else
      match refDictOf st ref with
      | .error e => (.error e, st)
      | .ok R =>
        let ar := allocD st R
        match mergeBranch B R strict with
        | .error e => (.error e, ar.2)
        | .ok none => finishResolve ar.2 ar.1 return_parts
        | .ok (some T) =>
          let at2 := allocD ar.2 T
          finishResolve at2.2 at2.1 return_parts

/-- String-to-string resolution as used by the module's test cases. -/
def resolveStr (base ref : String) (strict return_parts : Bool) : Except Err PyOut :=
  (resolve [] (.str base) (.str ref) strict return_parts).1

/-- Full anchored match of a rule against a string, i.e. the compiled
pattern `'^%(rule)s$'` finds a match. -/
def matchesAnchored (re : RE) (s : String) : Bool :=
  !(allM (anchored re) none s.data).isEmpty

/-- `resolve.test_cases_base`. -/
def test_cases_base : String := "http://a/b/c/d;p?q"

/-- `resolve.test_cases`: the RFC 3986 section 5.4 oracle table attached to
`resolve`, reference paired with expected resolution. -/
def test_cases : List (String × String) :=
  [("g:h", "g:h"), ("g", "http://a/b/c/g"), ("./g", "http://a/b/c/g"),
   ("g/", "http://a/b/c/g/"), ("/g", "http://a/g"), ("//g", "http://g"),
   ("?y", "http://a/b/c/d;p?y"), ("g?y", "http://a/b/c/g?y"),
   ("#s", "http://a/b/c/d;p?q#s"), ("g#s", "http://a/b/c/g#s"),
   ("g?y#s", "http://a/b/c/g?y#s"), (";x", "http://a/b/c/;x"),
   ("g;x", "http://a/b/c/g;x"), ("g;x?y#s", "http://a/b/c/g;x?y#s"),
   ("", "http://a/b/c/d;p?q"), (".", "http://a/b/c/"), ("./", "http://a/b/c/"),
   ("..", "http://a/b/"), ("../", "http://a/b/"), ("../g", "http://a/b/g"),
   ("../..", "http://a/"), ("../../", "http://a/"), ("../../g", "http://a/g"),
   ("../../../g", "http://a/g"), ("../../../../g", "http://a/g"),
   ("/./g", "http://a/g"), ("/../g", "http://a/g"), ("g.", "http://a/b/c/g."),
   (".g", "http://a/b/c/.g"), ("g..", "http://a/b/c/g.."),
   ("..g", "http://a/b/c/..g"), ("./../g", "http://a/b/g"),
   ("./g/.", "http://a/b/c/g/"), ("g/./h", "http://a/b/c/g/h"),
   ("g/../h", "http://a/b/c/h"), ("g;x=1/./y", "http://a/b/c/g;x=1/y"),
   ("g;x=1/../y", "http://a/b/c/y")]

end RFC

deriving instance DecidableEq for Except

namespace RFC

set_option maxRecDepth 4000000 in
/-- C1.  For the base `"http://a/b/c/d;p?q"`, `resolve(base, r)` with
`strict=True` and `return_parts=False` returns exactly the literal string
of the RFC 3986 section 5.4 oracle for every reference of the table,
including `"g:h"` (absolute override), `""` (base path and query kept, no
fragment), `"../../../g"` (over-ascent past the root stops ascending
without error), `"/./g"`, `"/../g"`, `"g;x=1/./y"` and `"g;x=1/../y"`. -/
theorem resolve_matches_oracle_table :
    ∀ c ∈ test_cases, resolveStr test_cases_base c.1 true false = .ok (.str c.2) := by
  decide

set_option maxRecDepth 4000000 in
/-- Witness: the oracle theorem applied at the concrete reference
`"../../../g"` of the table. -/
theorem resolve_matches_oracle_table_witness :
    resolveStr test_cases_base "../../../g" true false = .ok (.str "http://a/g") :=
  resolve_matches_oracle_table ("../../../g", "http://a/g") (by decide)

/-- The supplementary-plane probe `"urn:"` followed by U+10300. -/
def smpString : String := "urn:" ++ String.mk [Char.ofNat 0x10300]

set_option maxRecDepth 4000000 in
/-- C7.  The grammar separates URI from IRI and refuses a second hash mark:
`"urn:<U+10300>"` matches `IRI` but not `URI` fully anchored, and `"#f#g"`
matches neither `relative_ref` nor `IRI_reference` fully anchored, the
fragment production admitting only `pchar`, `/` and `?`. -/
theorem grammar_uri_iri_and_second_hash :
    matchesAnchored IRI smpString = true ∧
    matchesAnchored URI smpString = false ∧
    matchesAnchored relative_ref "#f#g" = false ∧
    matchesAnchored IRI_reference "#f#g" = false := by
  refine ⟨by decide, by decide, by decide, by decide⟩

/-! Dictionary lemmas. -/

theorem dGet_dSet_self (d : Dict) (k : String) (v : Option String) :
    dGet (dSet d k v) k = v := by
  induction d with
  | nil => simp [dGet, dSet]
  | cons e rest ih =>
    by_cases h : e.1 = k
    · simp [dGet, dSet, h]
    · simp only [dSet, dGet, beq_iff_eq, h, if_false]
      exact ih

theorem dGet_dSet_ne (d : Dict) (k k2 : String) (v : Option String) (h : k ≠ k2) :
    dGet (dSet d k v) k2 = dGet d k2 := by
  induction d with
  | nil => simp [dGet, dSet, h]
  | cons e rest ih =>
    by_cases he : e.1 = k
    · simp [dGet, dSet, he, h]
    · simp only [dSet, dGet, beq_iff_eq, he, if_false]
      by_cases he2 : e.1 = k2 <;> simp [he2, ih]

/-- `_i2u` never touches the `scheme` key. -/
theorem dGet_i2uD_scheme (d : Dict) : dGet (i2uD d) "scheme" = dGet d "scheme" := by
  simp only [i2uD, List.foldl]
  split <;> split <;> split <;> split <;>
    simp [dGet_dSet_ne _ _ _ _ (by decide : ("fragment" : String) ≠ "scheme"),
      dGet_dSet_ne _ _ _ _ (by decide : ("query" : String) ≠ "scheme"),
      dGet_dSet_ne _ _ _ _ (by decide : ("path" : String) ≠ "scheme"),
      dGet_dSet_ne _ _ _ _ (by decide : ("authority" : String) ≠ "scheme")]

/-! Claims about `compose`. -/

/-!
A declarative characterisation of matching: `M re p r p' r' d` holds when
the pattern `re`, started with previous character `p` and remaining input
`r`, can match a prefix of `r`, ending with previous character `p'` and
remaining input `r'`, producing the captures `d` in completion order.  The
relation mirrors `allMF` case by case (the star rule carries the same
progress requirement); soundness and completeness below make the
correspondence exact.
-/
inductive M : RE → Option Char → List Char → Option Char → List Char → Caps → Prop where
  | eps {p r} : M .eps p r p r []
  | cls {rs p c r} (h : inRanges c rs = true) : M (.cls rs) p (c :: r) (some c) r []
  | cat {a b p r p1 r1 d1 p2 r2 d2} (h1 : M a p r p1 r1 d1)
      (h2 : M b p1 r1 p2 r2 d2) : M (.cat a b) p r p2 r2 (d1 ++ d2)
  | altL {a b p r p2 r2 d} (h : M a p r p2 r2 d) : M (.alt a b) p r p2 r2 d
  | altR {a b p r p2 r2 d} (h : M b p r p2 r2 d) : M (.alt a b) p r p2 r2 d
  | starNil {a p r} : M (.star a) p r p r []
  | starCons {a p r p1 r1 d1 p2 r2 d2} (h1 : M a p r p1 r1 d1)
      (hlt : r1.length < r.length) (h2 : M (.star a) p1 r1 p2 r2 d2) :
      M (.star a) p r p2 r2 (d1 ++ d2)
  | group {n a p r p1 r1 d} (h : M a p r p1 r1 d) :
      M (.group n a) p r p1 r1 (d ++ [(n, String.mk (r.take (r.length - r1.length)))])
  | bol {r} : M .bol none r none r []
  | eol {p r} (h : r = [] ∨ r = ['\n']) : M .eol p r p r []
  | lookb {rs c r} (h : inRanges c rs = true) : M (.lookb rs) (some c) r (some c) r []

/-- A match only consumes: the remainder is a suffix of the input. -/
theorem M_consumed {re : RE} {p : Option Char} {r : List Char} {p2 : Option Char}
    {r2 : List Char} {d : Caps} (h : M re p r p2 r2 d) : ∃ cs, r = cs ++ r2 := by
  induction h with
  | eps => exact ⟨[], rfl⟩
  | cls _ => exact ⟨[_], rfl⟩
  | cat _ _ ih1 ih2 =>
    obtain ⟨cs1, e1⟩ := ih1; obtain ⟨cs2, e2⟩ := ih2
    exact ⟨cs1 ++ cs2, by simp [e1, e2]⟩
  | altL _ ih => exact ih
  | altR _ ih => exact ih
  | starNil => exact ⟨[], rfl⟩
  | starCons _ _ _ ih1 ih2 =>
    obtain ⟨cs1, e1⟩ := ih1; obtain ⟨cs2, e2⟩ := ih2
    exact ⟨cs1 ++ cs2, by simp [e1, e2]⟩
  | group _ ih => exact ih
  | bol => exact ⟨[], rfl⟩
  | eol _ => exact ⟨[], rfl⟩
  | lookb _ => exact ⟨[], rfl⟩

/-- A match never lengthens the remaining input. -/
theorem M_length {re : RE} {p : Option Char} {r : List Char} {p2 : Option Char}
    {r2 : List Char} {d : Caps} (h : M re p r p2 r2 d) : r2.length ≤ r.length := by
  obtain ⟨cs, e⟩ := M_consumed h
  subst e; simp

/-- Every capture of a match is named by a group of the pattern. -/
theorem M_names {re : RE} {p : Option Char} {r : List Char} {p2 : Option Char}
    {r2 : List Char} {d : Caps} (h : M re p r p2 r2 d) :
    ∀ e ∈ d, e.1 ∈ collectNames re := by
  induction h with
  | eps => simp
  | cls _ => simp
  | cat _ _ ih1 ih2 =>
    intro e he
    rcases List.mem_append.mp he with h1 | h2
    · exact List.mem_append.mpr (Or.inl (ih1 e h1))
    · exact List.mem_append.mpr (Or.inr (ih2 e h2))
  | altL _ ih =>
    intro e he; exact List.mem_append.mpr (Or.inl (ih e he))
  | altR _ ih =>
    intro e he; exact List.mem_append.mpr (Or.inr (ih e he))
  | starNil => simp
  | starCons _ _ _ ih1 ih2 =>
    intro e he
    rcases List.mem_append.mp he with h1 | h2
    · exact ih1 e h1
    · exact ih2 e h2
  | group _ ih =>
    intro e he
    rcases List.mem_append.mp he with h1 | h2
    · exact List.mem_cons_of_mem _ (ih e h1)
    · simp only [List.mem_singleton] at h2
      subst h2; simp [collectNames]
  | bol => simp
  | eol _ => simp
  | lookb _ => simp

/-- A pattern without capture groups produces no captures. -/
theorem M_nogroups {re : RE} {p : Option Char} {r : List Char} {p2 : Option Char}
    {r2 : List Char} {d : Caps} (hn : collectNames re = []) (h : M re p r p2 r2 d) :
    d = [] := by
  rcases d with _ | ⟨e, rest⟩
  · rfl
  · have := M_names h e (by simp)
    rw [hn] at this
    exact absurd this (List.not_mem_nil _)

/-- Characters a pattern can consume (union of its character classes). -/
def reHasChar : RE → Char → Bool
  | .eps, _ => false
  | .cls rs, c => inRanges c rs
  | .cat a b, c => reHasChar a c || reHasChar b c
  | .alt a b, c => reHasChar a c || reHasChar b c
  | .star a, c => reHasChar a c
  | .group _ a, c => reHasChar a c
  | .bol, _ => false
  | .eol, _ => false
  | .lookb _, _ => false

/-- Every input character is either left in the remainder or consumable by
some character class of the pattern. -/
theorem M_chars {re : RE} {p : Option Char} {r : List Char} {p2 : Option Char}
    {r2 : List Char} {d : Caps} (h : M re p r p2 r2 d) :
    ∀ c ∈ r, c ∈ r2 ∨ reHasChar re c = true := by
  induction h with
  | eps => intro c hc; exact Or.inl hc
  | cls hin =>
    intro c hc
    rcases List.mem_cons.mp hc with rfl | hc2
    · exact Or.inr hin
    · exact Or.inl hc2
  | cat _ _ ih1 ih2 =>
    intro c hc
    rcases ih1 c hc with h1 | h1
    · rcases ih2 c h1 with h2 | h2
      · exact Or.inl h2
      · exact Or.inr (by simp [reHasChar, h2])
    · exact Or.inr (by simp [reHasChar, h1])
  | altL _ ih =>
    intro c hc
    rcases ih c hc with h1 | h1
    · exact Or.inl h1
    · exact Or.inr (by simp [reHasChar, h1])
  | altR _ ih =>
    intro c hc
    rcases ih c hc with h1 | h1
    · exact Or.inl h1
    · exact Or.inr (by simp [reHasChar, h1])
  | starNil => intro c hc; exact Or.inl hc
  | starCons _ _ _ ih1 ih2 =>
    intro c hc
    rcases ih1 c hc with h1 | h1
    · rcases ih2 c h1 with h2 | h2
      · exact Or.inl h2
      · exact Or.inr (by simpa [reHasChar] using h2)
    · exact Or.inr (by simp [reHasChar, h1])
  | group _ ih =>
    intro c hc
    rcases ih c hc with h1 | h1
    · exact Or.inl h1
    · exact Or.inr (by simpa [reHasChar] using h1)
  | bol => intro c hc; exact Or.inl hc
  | eol _ => intro c hc; exact Or.inl hc
  | lookb _ => intro c hc; exact Or.inl hc

/-- Positivity of the canonical fuel. -/
theorem fuelN_pos (re : RE) (r : List Char) : 0 < fuelN re r :=
  Nat.mul_pos (Nat.succ_pos _) (Nat.succ_pos _)

/-- Fuel bound for a subpattern of strictly smaller size. -/
theorem fuel_down {L s t k : Nat} (hst : s + 1 ≤ t) (h : (L + 1) * (t + 1) ≤ k + 1) :
    (L + 1) * (s + 1) ≤ k := by
  have h1 : (L + 1) * (s + 1) + 1 ≤ (L + 1) * (s + 1) + (L + 1) :=
    Nat.add_le_add_left (Nat.succ_le_succ (Nat.zero_le _)) _
  have h2 : (L + 1) * (s + 1) + (L + 1) = (L + 1) * (s + 2) := by ring
  have h3 : (L + 1) * (s + 2) ≤ (L + 1) * (t + 1) :=
    Nat.mul_le_mul (le_refl _) (by omega)
  exact Nat.le_of_succ_le_succ (le_trans h1 (le_trans (le_of_eq h2) (le_trans h3 h)))

/-- Fuel bound for a star iteration on a strictly shorter input. -/
theorem fuel_star {L1 L s k : Nat} (hlt : L1 < L) (h : (L + 1) * (s + 1) ≤ k + 1) :
    (L1 + 1) * (s + 1) ≤ k := by
  have h1 : (L1 + 1) * (s + 1) + 1 ≤ (L1 + 1) * (s + 1) + (s + 1) :=
    Nat.add_le_add_left (Nat.succ_le_succ (Nat.zero_le _)) _
  have h2 : (L1 + 1) * (s + 1) + (s + 1) = (L1 + 2) * (s + 1) := by ring
  have h3 : (L1 + 2) * (s + 1) ≤ (L + 1) * (s + 1) :=
    Nat.mul_le_mul (by omega) (le_refl _)
  exact Nat.le_of_succ_le_succ (le_trans h1 (le_trans (le_of_eq h2) (le_trans h3 h)))

/-- The canonical fuel is monotone in the input. -/
theorem fuelN_mono {re : RE} {r1 r : List Char} (h : r1.length ≤ r.length) :
    fuelN re r1 ≤ fuelN re r :=
  Nat.mul_le_mul (by omega) (le_refl _)

/-- Soundness: everything `allMF` enumerates is a declarative match. -/
theorem allMF_sound : ∀ (fuel : Nat) (re : RE) (p : Option Char) (r : List Char)
    (res : MRes), res ∈ allMF fuel re p r → M re p r res.1 res.2.1 res.2.2 := by
  intro fuel
  induction fuel with
  | zero => intro re p r res h; exact absurd h (List.not_mem_nil _)
  | succ k ih =>
    intro re p r res h
    cases re with
    | eps =>
      simp only [allMF, List.mem_singleton] at h
      subst h; exact M.eps
    | cls rs =>
      cases r with
      | nil => exact absurd h (by simp [allMF])
      | cons c rest =>
        simp only [allMF] at h
        split at h
        · simp only [List.mem_singleton] at h
          subst h; exact M.cls (by assumption)
        · exact absurd h (List.not_mem_nil _)
    | cat a b =>
      simp only [allMF, List.mem_flatMap] at h
      obtain ⟨x, hx, hres⟩ := h
      obtain ⟨p1, r1, d1⟩ := x
      simp only [List.mem_map] at hres
      obtain ⟨y, hy, hres⟩ := hres
      obtain ⟨py, ry, dy⟩ := y
      subst hres
      exact M.cat (ih a p r _ hx) (ih b p1 r1 _ hy)
    | alt a b =>
      simp only [allMF, List.mem_append] at h
      rcases h with h | h
      · exact M.altL (ih a p r res h)
      · exact M.altR (ih b p r res h)
    | star a =>
      simp only [allMF, List.mem_append] at h
      rcases h with h | h
      · simp only [List.mem_flatMap] at h
        obtain ⟨x, hx, hres⟩ := h
        obtain ⟨p1, r1, d1⟩ := x
        split at hres
        · simp only [List.mem_map] at hres
          obtain ⟨y, hy, hres⟩ := hres
          obtain ⟨py, ry, dy⟩ := y
          subst hres
          exact M.starCons (ih a p r _ hx) (by assumption) (ih (.star a) p1 r1 _ hy)
        · exact absurd hres (List.not_mem_nil _)
      · simp only [List.mem_singleton] at h
        subst h; exact M.starNil
    | group n a =>
      simp only [allMF, List.mem_map] at h
      obtain ⟨x, hx, hres⟩ := h
      obtain ⟨p1, r1, d1⟩ := x
      subst hres
      exact M.group (ih a p r _ hx)
    | bol =>
      simp only [allMF] at h
      split at h
      · simp only [List.mem_singleton] at h
        subst h
        have hp : p = none := Option.isNone_iff_eq_none.mp (by assumption)
        subst hp
        exact M.bol
      · exact absurd h (List.not_mem_nil _)
    | eol =>
      simp only [allMF] at h
      split at h
      · simp only [List.mem_singleton] at h
        subst h
        refine M.eol ?_
        rcases Bool.or_eq_true _ _ |>.mp (by assumption) with h1 | h1
        · exact Or.inl (by simpa [List.isEmpty_iff] using h1)
        · exact Or.inr (by simpa using h1)
      · exact absurd h (List.not_mem_nil _)
    | lookb rs =>
      cases p with
      | none => exact absurd h (by simp [allMF])
      | some c =>
        simp only [allMF] at h
        split at h
        · simp only [List.mem_singleton] at h
          subst h; exact M.lookb (by assumption)
        · exact absurd h (List.not_mem_nil _)

/-- Soundness at the canonical fuel. -/
theorem allM_sound (re : RE) (p : Option Char) (r : List Char) (res : MRes)
    (h : res ∈ allM re p r) : M re p r res.1 res.2.1 res.2.2 :=
  allMF_sound _ re p r res h

/-- Fuel bounds for the left factor of a concatenation. -/
theorem fuelN_cat_a {a b : RE} {r : List Char} {k : Nat}
    (h : fuelN (.cat a b) r ≤ k + 1) : fuelN a r ≤ k := by
  simp only [fuelN, reSize] at h ⊢
  exact fuel_down (by omega) h

/-- Fuel bound for the right factor of a concatenation. -/
theorem fuelN_cat_b {a b : RE} {r : List Char} {k : Nat}
    (h : fuelN (.cat a b) r ≤ k + 1) : fuelN b r ≤ k := by
  simp only [fuelN, reSize] at h ⊢
  exact fuel_down (by omega) h

/-- Fuel bound for the left alternative. -/
theorem fuelN_alt_a {a b : RE} {r : List Char} {k : Nat}
    (h : fuelN (.alt a b) r ≤ k + 1) : fuelN a r ≤ k := by
  simp only [fuelN, reSize] at h ⊢
  exact fuel_down (by omega) h

/-- Fuel bound for the right alternative. -/
theorem fuelN_alt_b {a b : RE} {r : List Char} {k : Nat}
    (h : fuelN (.alt a b) r ≤ k + 1) : fuelN b r ≤ k := by
  simp only [fuelN, reSize] at h ⊢
  exact fuel_down (by omega) h

/-- Fuel bound for a group body. -/
theorem fuelN_group {n : String} {a : RE} {r : List Char} {k : Nat}
    (h : fuelN (.group n a) r ≤ k + 1) : fuelN a r ≤ k := by
  simp only [fuelN, reSize] at h ⊢
  exact fuel_down (by omega) h

/-- Fuel bound for a star body. -/
theorem fuelN_star_body {a : RE} {r : List Char} {k : Nat}
    (h : fuelN (.star a) r ≤ k + 1) : fuelN a r ≤ k := by
  simp only [fuelN, reSize] at h ⊢
  exact fuel_down (by omega) h

/-- Fuel bound for the star's recursive call on a shorter input. -/
theorem fuelN_star_rec {a : RE} {r r1 : List Char} {k : Nat}
    (hlt : r1.length < r.length) (h : fuelN (.star a) r ≤ k + 1) :
    fuelN (.star a) r1 ≤ k := by
  simp only [fuelN, reSize] at h ⊢
  exact fuel_star hlt h

/-- Completeness: every declarative match is enumerated, for any fuel at
least the canonical one. -/
theorem allMF_complete {re : RE} {p : Option Char} {r : List Char} {p2 : Option Char}
    {r2 : List Char} {d : Caps} (h : M re p r p2 r2 d) :
    ∀ fuel, fuelN re r ≤ fuel → (p2, r2, d) ∈ allMF fuel re p r := by
  induction h with
  | eps =>
    intro fuel hf
    rcases fuel with _ | k
    · exact absurd hf (Nat.not_le.mpr (fuelN_pos _ _))
    · simp [allMF]
  | cls hin =>
    intro fuel hf
    rcases fuel with _ | k
    · exact absurd hf (Nat.not_le.mpr (fuelN_pos _ _))
    · simp [allMF, hin]
  | @cat a b p r p1 r1 d1 p2 r2 d2 h1 h2 ih1 ih2 =>
    intro fuel hf
    rcases fuel with _ | k
    · exact absurd hf (Nat.not_le.mpr (fuelN_pos _ _))
    · simp only [allMF, List.mem_flatMap]
      refine ⟨(p1, r1, d1), ih1 k (fuelN_cat_a hf), ?_⟩
      simp only [List.mem_map]
      exact ⟨(p2, r2, d2), ih2 k (le_trans (fuelN_mono (M_length h1)) (fuelN_cat_b hf)), rfl⟩
  | @altL a b p r p2 r2 d h ih =>
    intro fuel hf
    rcases fuel with _ | k
    · exact absurd hf (Nat.not_le.mpr (fuelN_pos _ _))
    · simp only [allMF, List.mem_append]
      exact Or.inl (ih k (fuelN_alt_a hf))
  | @altR a b p r p2 r2 d h ih =>
    intro fuel hf
    rcases fuel with _ | k
    · exact absurd hf (Nat.not_le.mpr (fuelN_pos _ _))
    · simp only [allMF, List.mem_append]
      exact Or.inr (ih k (fuelN_alt_b hf))
  | starNil =>
    intro fuel hf
    rcases fuel with _ | k
    · exact absurd hf (Nat.not_le.mpr (fuelN_pos _ _))
    · simp [allMF]
  | @starCons a p r p1 r1 d1 p2 r2 d2 h1 hlt h2 ih1 ih2 =>
    intro fuel hf
    rcases fuel with _ | k
    · exact absurd hf (Nat.not_le.mpr (fuelN_pos _ _))
    · simp only [allMF, List.mem_append]
      refine Or.inl ?_
      simp only [List.mem_flatMap]
      refine ⟨(p1, r1, d1), ih1 k (fuelN_star_body hf), ?_⟩
      rw [if_pos hlt]
      simp only [List.mem_map]
      exact ⟨(p2, r2, d2), ih2 k (fuelN_star_rec hlt hf), rfl⟩
  | @group n a p r p1 r1 d h ih =>
    intro fuel hf
    rcases fuel with _ | k
    · exact absurd hf (Nat.not_le.mpr (fuelN_pos _ _))
    · simp only [allMF, List.mem_map]
      exact ⟨(p1, r1, d), ih k (fuelN_group hf), rfl⟩
  | bol =>
    intro fuel hf
    rcases fuel with _ | k
    · exact absurd hf (Nat.not_le.mpr (fuelN_pos _ _))
    · simp [allMF]
  | @eol p r hr =>
    intro fuel hf
    rcases fuel with _ | k
    · exact absurd hf (Nat.not_le.mpr (fuelN_pos _ _))
    · rcases hr with hr | hr <;> subst hr <;> simp [allMF]
  | lookb hin =>
    intro fuel hf
    rcases fuel with _ | k
    · exact absurd hf (Nat.not_le.mpr (fuelN_pos _ _))
    · simp [allMF, hin]

/-- Completeness at the canonical fuel. -/
theorem allM_complete {re : RE} {p : Option Char} {r : List Char} {p2 : Option Char}
    {r2 : List Char} {d : Caps} (h : M re p r p2 r2 d) : (p2, r2, d) ∈ allM re p r :=
  allMF_complete h _ (le_refl _)

/-- Inversion for the empty pattern. -/
theorem M_eps_inv {p : Option Char} {r : List Char} {p2 : Option Char} {r2 : List Char}
    {d : Caps} (h : M .eps p r p2 r2 d) : p2 = p ∧ r2 = r ∧ d = [] := by
  cases h; exact ⟨rfl, rfl, rfl⟩

/-- Inversion for a character class. -/
theorem M_cls_inv {rs : List (Char × Char)} {p : Option Char} {r : List Char}
    {p2 : Option Char} {r2 : List Char} {d : Caps} (h : M (.cls rs) p r p2 r2 d) :
    ∃ c, r = c :: r2 ∧ p2 = some c ∧ d = [] ∧ inRanges c rs = true := by
  cases h with
  | cls hin => exact ⟨_, rfl, rfl, rfl, hin⟩

/-- Inversion for concatenation. -/
theorem M_cat_inv {a b : RE} {p : Option Char} {r : List Char} {p2 : Option Char}
    {r2 : List Char} {d : Caps} (h : M (.cat a b) p r p2 r2 d) :
    ∃ p1 r1 d1 d2, M a p r p1 r1 d1 ∧ M b p1 r1 p2 r2 d2 ∧ d = d1 ++ d2 := by
  cases h with
  | cat h1 h2 => exact ⟨_, _, _, _, h1, h2, rfl⟩

/-- Inversion for alternation. -/
theorem M_alt_inv {a b : RE} {p : Option Char} {r : List Char} {p2 : Option Char}
    {r2 : List Char} {d : Caps} (h : M (.alt a b) p r p2 r2 d) :
    M a p r p2 r2 d ∨ M b p r p2 r2 d := by
  cases h with
  | altL h => exact Or.inl h
  | altR h => exact Or.inr h

/-- Inversion for the start anchor. -/
theorem M_bol_inv {p : Option Char} {r : List Char} {p2 : Option Char} {r2 : List Char}
    {d : Caps} (h : M .bol p r p2 r2 d) : p = none ∧ p2 = none ∧ r2 = r ∧ d = [] := by
  cases h; exact ⟨rfl, rfl, rfl, rfl⟩

/-- Inversion for the end anchor. -/
theorem M_eol_inv {p : Option Char} {r : List Char} {p2 : Option Char} {r2 : List Char}
    {d : Caps} (h : M .eol p r p2 r2 d) :
    p2 = p ∧ r2 = r ∧ d = [] ∧ (r = [] ∨ r = ['\n']) := by
  cases h with
  | eol hr => exact ⟨rfl, rfl, rfl, hr⟩

/-- Inversion for a named group: the capture is exactly the consumed
segment, appended after the body's captures. -/
theorem M_group_inv {n : String} {a : RE} {p : Option Char} {r : List Char}
    {p2 : Option Char} {r2 : List Char} {d : Caps} (h : M (.group n a) p r p2 r2 d) :
    ∃ d0 cs, r = cs ++ r2 ∧ d = d0 ++ [(n, String.mk cs)] ∧ M a p r p2 r2 d0 := by
  cases h with
  | group h0 =>
    obtain ⟨cs, hcs⟩ := M_consumed h0
    refine ⟨_, cs, hcs, ?_, h0⟩
    have ht : r.take (r.length - r2.length) = cs := by
      subst hcs
      simp [List.length_append]
    rw [ht]

/-- Inversion for a group whose body has no capture groups. -/
theorem M_group_simple {n : String} {a : RE} (hn : collectNames a = [])
    {p : Option Char} {r : List Char} {p2 : Option Char} {r2 : List Char} {d : Caps}
    (h : M (.group n a) p r p2 r2 d) :
    ∃ cs, r = cs ++ r2 ∧ d = [(n, String.mk cs)] := by
  obtain ⟨d0, cs, hcs, hd, h0⟩ := M_group_inv h
  refine ⟨cs, hcs, ?_⟩
  rw [hd, M_nogroups hn h0]
  rfl

/-- A one-point range only matches its character. -/
theorem inRanges_single {c a : Char} (h : inRanges c [(a, a)] = true) : c = a := by
  simp only [inRanges, Bool.or_false, Bool.and_eq_true, decide_eq_true_eq] at h
  exact le_antisymm h.2 h.1

/-!  Lookup computations over capture lists.  -/

/-- The last-capture lookup distributes over append, preferring the right
part. -/
theorem lastLookup_append (d1 d2 : Caps) (n : String) :
    lastLookup (d1 ++ d2) n = (lastLookup d2 n).or (lastLookup d1 n) := by
  simp only [lastLookup, List.filter_append]
  rcases hl : (d2.filter (fun e => e.1 == n)).getLast? with _ | v
  · rw [List.getLast?_eq_none_iff] at hl
    rw [hl, List.append_nil]
    simp
  · rw [List.getLast?_append_of_ne_nil, hl]
    · rfl
    · intro hnil
      rw [hnil] at hl
      exact absurd hl (by simp)

/-- Lookup in a single capture. -/
theorem lastLookup_single (m : String) (v : String) (n : String) :
    lastLookup [(m, v)] n = if m == n then some v else none := by
  by_cases h : m == n
  · simp [lastLookup, List.filter, h]
  · simp only [Bool.not_eq_true] at h
    simp [lastLookup, List.filter, h]

/-- Lookup through a leading capture. -/
theorem lastLookup_cons (e : String × String) (rest : Caps) (n : String) :
    lastLookup (e :: rest) n =
      (lastLookup rest n).or (if e.1 == n then some e.2 else none) := by
  cases e with
  | mk m v =>
    rw [show (m, v) :: rest = [(m, v)] ++ rest from rfl, lastLookup_append,
      lastLookup_single]

/-- A capture list whose names avoid `k` yields no lookup value. -/
theorem lastLookup_none_of_names {d : Caps} {l : List String}
    (hn : ∀ e ∈ d, e.1 ∈ l) {k : String} (hk : k ∉ l) :
    lastLookup d k = none := by
  have hf : d.filter (fun e => e.1 == k) = [] := by
    rw [List.filter_eq_nil_iff]
    intro e he hbeq
    exact hk (eq_of_beq hbeq ▸ hn e he)
  simp [lastLookup, hf]

/-- `dGet` on a dict built by mapping names to values. -/
theorem dGet_map_lookup (f : String → Option String) (k : String) :
    ∀ names : List String, dGet (names.map (fun n => (n, f n))) k =
      if names.contains k then f k else none := by
  intro names
  induction names with
  | nil => rfl
  | cons a rest ih =>
    by_cases h : a == k
    · simp only [List.map, dGet, h, List.contains_cons]
      rw [eq_of_beq h]
      simp
    · simp only [Bool.not_eq_true] at h
      simp only [List.map, dGet, h, List.contains_cons, ih]
      have hne : ¬ k = a := fun he => by subst he; simp at h
      simp [hne]


/-- One `_i2u` step writing a `None` value does not change any lookup. -/
theorem dGet_foldStep (d : Dict) (n : String) (v : Option String) (hv : v = none)
    (k : String) :
    dGet (if (dGet d n).isNone then dSet d n v else d) k = dGet d k := by
  split
  · rcases eq_or_ne n k with rfl | hne
    · rw [dGet_dSet_self, hv]
      exact (Option.isNone_iff_eq_none.mp (by assumption)).symm
    · exact dGet_dSet_ne d n k v hne
  · rfl

/-- The `_i2u` fold does not change any lookup when every source field
reads `None`. -/
theorem dGet_i2u_fold (pairs : List (String × String)) :
    ∀ (d : Dict), (∀ pr ∈ pairs, dGet d pr.2 = none) →
      ∀ k, dGet (pairs.foldl
        (fun d ni => if (dGet d ni.1).isNone then dSet d ni.1 (dGet d ni.2) else d) d) k
        = dGet d k := by
  induction pairs with
  | nil => intro d _ k; rfl
  | cons pr rest ih =>
    intro d hp k
    simp only [List.foldl]
    have hstep : ∀ k2,
        dGet (if (dGet d pr.1).isNone then dSet d pr.1 (dGet d pr.2) else d) k2
          = dGet d k2 :=
      fun k2 => dGet_foldStep d pr.1 _ (hp pr (by simp)) k2
    have hih := ih (if (dGet d pr.1).isNone then dSet d pr.1 (dGet d pr.2) else d)
      (fun pr2 hm => by rw [hstep]; exact hp pr2 (List.mem_cons_of_mem _ hm)) k
    rw [hih]
    exact hstep k

/-- `_i2u` preserves every lookup when the four IRI-named fields read
`None`. -/
theorem dGet_i2uD_eq (d : Dict) (h1 : dGet d "iauthority" = none)
    (h2 : dGet d "ipath" = none) (h3 : dGet d "iquery" = none)
    (h4 : dGet d "ifragment" = none) (k : String) :
    dGet (i2uD d) k = dGet d k := by
  simp only [i2uD]
  refine dGet_i2u_fold _ d ?_ k
  intro pr hm
  simp only [List.mem_cons, List.not_mem_nil, or_false] at hm
  rcases hm with rfl | rfl | rfl | rfl <;> assumption

/-- `compose` reads only the five component names. -/
theorem compose_eq_of_dGet (d e : Dict)
    (h1 : dGet d "scheme" = dGet e "scheme")
    (h2 : dGet d "authority" = dGet e "authority")
    (h3 : dGet d "path" = dGet e "path")
    (h4 : dGet d "query" = dGet e "query")
    (h5 : dGet d "fragment" = dGet e "fragment") : compose d = compose e := by
  simp only [compose]
  rw [h1, h2, h3, h4, h5]

/-- Composing the parsed group dictionary of a `URI` match depends only on
the last captures of the five component groups. -/
theorem compose_lookup_URI (d : Caps) :
    compose (i2uD (groupdictOf URI d)) =
      compose [("scheme", lastLookup d "scheme"), ("authority", lastLookup d "authority"),
               ("path", lastLookup d "path"), ("query", lastLookup d "query"),
               ("fragment", lastLookup d "fragment")] := by
  have hg : ∀ k : String, dGet (groupdictOf URI d) k =
      if (dedupKeepFirst (collectNames URI)).contains k then lastLookup d k else none :=
    fun k => dGet_map_lookup (lastLookup d) k _
  have hIA : dGet (groupdictOf URI d) "iauthority" = none := by
    rw [hg, if_neg (by decide)]
  have hIP : dGet (groupdictOf URI d) "ipath" = none := by
    rw [hg, if_neg (by decide)]
  have hIQ : dGet (groupdictOf URI d) "iquery" = none := by
    rw [hg, if_neg (by decide)]
  have hIF : dGet (groupdictOf URI d) "ifragment" = none := by
    rw [hg, if_neg (by decide)]
  apply compose_eq_of_dGet
  · rw [dGet_i2uD_eq _ hIA hIP hIQ hIF, hg, if_pos (by decide)]
    rfl
  · rw [dGet_i2uD_eq _ hIA hIP hIQ hIF, hg, if_pos (by decide)]
    rfl
  · rw [dGet_i2uD_eq _ hIA hIP hIQ hIF, hg, if_pos (by decide)]
    rfl
  · rw [dGet_i2uD_eq _ hIA hIP hIQ hIF, hg, if_pos (by decide)]
    rfl
  · rw [dGet_i2uD_eq _ hIA hIP hIQ hIF, hg, if_pos (by decide)]
    rfl

/-- Strings with the same character data are equal. -/
theorem str_ext {a b : String} (h : a.data = b.data) : a = b := by
  cases a; cases b; exact congrArg String.mk h

/-- Append acts on the character data. -/
theorem data_append (a b : String) : (a ++ b).data = a.data ++ b.data := rfl

/-- Lookup over the empty capture list. -/
theorem lastLookup_nil (n : String) : lastLookup [] n = none := rfl

/-- The authority rule's group body. -/
def authInner : RE :=
  .cat (optRE (.cat userinfo (litRE '@'))) (.cat host (optRE (.cat (litRE ':') port)))

/-- Captures of a `scheme` match. -/
theorem scheme_caps {p : Option Char} {r : List Char} {p2 : Option Char}
    {r2 : List Char} {d : Caps} (h : M scheme p r p2 r2 d) :
    ∃ cs, r = cs ++ r2 ∧ d = [("scheme", String.mk cs)] :=
  M_group_simple (by rfl) h

/-- Captures of a `path_abempty` match. -/
theorem path_abempty_caps {p : Option Char} {r : List Char} {p2 : Option Char}
    {r2 : List Char} {d : Caps} (h : M path_abempty p r p2 r2 d) :
    ∃ cs, r = cs ++ r2 ∧ d = [("path", String.mk cs)] :=
  M_group_simple (by rfl) h

/-- Captures of a `path_absolute` match. -/
theorem path_absolute_caps {p : Option Char} {r : List Char} {p2 : Option Char}
    {r2 : List Char} {d : Caps} (h : M path_absolute p r p2 r2 d) :
    ∃ cs, r = cs ++ r2 ∧ d = [("path", String.mk cs)] :=
  M_group_simple (by rfl) h

/-- Captures of a `path_rootless` match. -/
theorem path_rootless_caps {p : Option Char} {r : List Char} {p2 : Option Char}
    {r2 : List Char} {d : Caps} (h : M path_rootless p r p2 r2 d) :
    ∃ cs, r = cs ++ r2 ∧ d = [("path", String.mk cs)] :=
  M_group_simple (by rfl) h

/-- Captures of a `path_empty` match. -/
theorem path_empty_caps {p : Option Char} {r : List Char} {p2 : Option Char}
    {r2 : List Char} {d : Caps} (h : M path_empty p r p2 r2 d) :
    ∃ cs, r = cs ++ r2 ∧ d = [("path", String.mk cs)] :=
  M_group_simple (by rfl) h

/-- Captures of a `query` match. -/
theorem query_caps {p : Option Char} {r : List Char} {p2 : Option Char}
    {r2 : List Char} {d : Caps} (h : M query p r p2 r2 d) :
    ∃ cs, r = cs ++ r2 ∧ d = [("query", String.mk cs)] :=
  M_group_simple (by rfl) h

/-- Captures of a `fragment` match. -/
theorem fragment_caps {p : Option Char} {r : List Char} {p2 : Option Char}
    {r2 : List Char} {d : Caps} (h : M fragment p r p2 r2 d) :
    ∃ cs, r = cs ++ r2 ∧ d = [("fragment", String.mk cs)] :=
  M_group_simple (by rfl) h

/-- Captures of an `authority` match: the authority capture last, preceded
only by captures named after its subrules. -/
theorem authority_caps {p : Option Char} {r : List Char} {p2 : Option Char}
    {r2 : List Char} {d : Caps} (h : M authority p r p2 r2 d) :
    ∃ d0 cs, r = cs ++ r2 ∧ d = d0 ++ [("authority", String.mk cs)] ∧
      ∀ e ∈ d0, e.1 ∈ collectNames authInner := by
  obtain ⟨d0, cs, h1, h2, h3⟩ := M_group_inv h
  exact ⟨d0, cs, h1, h2, M_names h3⟩

/-- Evaluation of `compose` on an explicit five-component dict, at the
level of character data. -/
theorem compose_five (oS oA oQ oF : Option String) (sP : String) :
    (compose [("scheme", oS), ("authority", oA), ("path", some sP), ("query", oQ),
              ("fragment", oF)]).data =
      (match oS with | some s => s.data ++ [':'] | none => []) ++
      ((match oA with | some a => '/' :: '/' :: a.data | none => []) ++
       (sP.data ++
        ((match oQ with | some q => '?' :: q.data | none => []) ++
         (match oF with | some f => '#' :: f.data | none => [])))) := by
  rcases oS with _ | sS <;> rcases oA with _ | sA <;> rcases oQ with _ | sQ <;>
    rcases oF with _ | sF <;>
    simp [compose, dGet, orEmpty, data_append,
      show ("" : String).data = [] from rfl,
      show (":" : String).data = [':'] from rfl,
      show ("//" : String).data = ['/', '/'] from rfl,
      show ("?" : String).data = ['?'] from rfl,
      show ("#" : String).data = ['#'] from rfl]

/-- `Option.or` with a right `none`. -/
theorem or_none_r (o : Option String) : o.or none = o := by cases o <;> rfl

/-- `Option.or` with a left `none`. -/
theorem or_none_l (o : Option String) : Option.or none o = o := rfl

/-- `Option.or` with a left `some`. -/
theorem or_some_l (a : String) (o : Option String) : Option.or (some a) o = some a := rfl

/-- Data of a constructed string. -/
theorem mk_data (l : List Char) : (String.mk l).data = l := rfl

/-- Reconstruction: the parsed component dictionary of a full `URI` match
composes back to the matched characters. -/
theorem URI_reconstruct {cs : List Char} {p2 : Option Char} {d : Caps}
    (h : M URI none cs p2 [] d) :
    compose (i2uD (groupdictOf URI d)) = String.mk cs := by
  rw [compose_lookup_URI]
  obtain ⟨d1, csU, hcsU, hdU, h1⟩ := M_group_inv h
  obtain ⟨pa, ra, dA, dF, hA, hF, hd1⟩ := M_cat_inv h1
  obtain ⟨d2, csA, hcsA, hdA, h2⟩ := M_group_inv hA
  obtain ⟨p1, r1, dS, dR1, hS, hR1, hd2⟩ := M_cat_inv h2
  obtain ⟨csS, hcsS, hdS⟩ := scheme_caps hS
  obtain ⟨pc, r2, dC, dR2, hC, hR2, hdR1⟩ := M_cat_inv hR1
  obtain ⟨c1, hr1, hpc, hdC, hc1⟩ := M_cls_inv hC
  rw [inRanges_single hc1] at hr1
  obtain ⟨p3, r3, dH, dQ, hH, hQ, hdR2⟩ := M_cat_inv hR2
  have hHsum : (∃ dA0 csAu csP, r2 = '/' :: '/' :: (csAu ++ (csP ++ r3)) ∧
      dH = (dA0 ++ [("authority", String.mk csAu)]) ++ [("path", String.mk csP)] ∧
      ∀ e ∈ dA0, e.1 ∈ collectNames authInner) ∨
      (∃ csP, r2 = csP ++ r3 ∧ dH = [("path", String.mk csP)]) := by
    rcases M_alt_inv hH with hB1 | hRest
    · left
      obtain ⟨q1, s1, dx1, dy1, hSl1, hRest1, hdH⟩ := M_cat_inv hB1
      obtain ⟨cA, hr2, hq1, hdx1, hcA⟩ := M_cls_inv hSl1
      rw [inRanges_single hcA] at hr2
      obtain ⟨q2, s2, dx2, dy2, hSl2, hRest2, hdy1⟩ := M_cat_inv hRest1
      obtain ⟨cB, hs1, hq2, hdx2, hcB⟩ := M_cls_inv hSl2
      rw [inRanges_single hcB] at hs1
      obtain ⟨q3, s3, dAu, dPb, hAu, hPab, hdy2⟩ := M_cat_inv hRest2
      obtain ⟨dA0, csAu, hs2, hdAu, hnames⟩ := authority_caps hAu
      obtain ⟨csP, hs3, hdPb⟩ := path_abempty_caps hPab
      refine ⟨dA0, csAu, csP, ?_, ?_, hnames⟩
      · rw [hr2, hs1, hs2, hs3]
      · rw [hdH, hdx1, hdy1, hdx2, hdy2, hdAu, hdPb]
        simp
    · rcases M_alt_inv hRest with hPA | hRest2
      · exact Or.inr (path_absolute_caps hPA)
      · rcases M_alt_inv hRest2 with hPR | hPE
        · exact Or.inr (path_rootless_caps hPR)
        · exact Or.inr (path_empty_caps hPE)
  have hQsum : (∃ csQ, r3 = '?' :: (csQ ++ ra) ∧ dQ = [("query", String.mk csQ)]) ∨
      (ra = r3 ∧ dQ = []) := by
    rcases M_alt_inv hQ with hQ1 | hQ0
    · left
      obtain ⟨q1, s1, dx, dy, hCl, hQg, hdQ⟩ := M_cat_inv hQ1
      obtain ⟨cq, hr3, hq1, hdx, hcq⟩ := M_cls_inv hCl
      rw [inRanges_single hcq] at hr3
      obtain ⟨csQ, hs1, hdy⟩ := query_caps hQg
      refine ⟨csQ, ?_, ?_⟩
      · rw [hr3, hs1]
      · rw [hdQ, hdx, hdy]
        simp
    · obtain ⟨hpa, hra, hdQ⟩ := M_eps_inv hQ0
      exact Or.inr ⟨hra, hdQ⟩
  have hFsum : (∃ csF, ra = '#' :: (csF ++ []) ∧ dF = [("fragment", String.mk csF)]) ∨
      (ra = [] ∧ dF = []) := by
    rcases M_alt_inv hF with hF1 | hF0
    · left
      obtain ⟨q1, s1, dx, dy, hCl, hFg, hdF⟩ := M_cat_inv hF1
      obtain ⟨cf, hra, hq1, hdx, hcf⟩ := M_cls_inv hCl
      rw [inRanges_single hcf] at hra
      obtain ⟨csF, hs1, hdy⟩ := fragment_caps hFg
      refine ⟨csF, ?_, ?_⟩
      · rw [hra, hs1]
      · rw [hdF, hdx, hdy]
        simp
    · obtain ⟨hpf, hra, hdF⟩ := M_eps_inv hF0
      exact Or.inr ⟨hra.symm, hdF⟩
  rcases hHsum with ⟨dA0, csAu, csP, hr2, hdH, hnames⟩ | ⟨csP, hr2, hdH⟩
  · have n1 : lastLookup dA0 "scheme" = none := lastLookup_none_of_names hnames (by decide)
    have n2 : lastLookup dA0 "authority" = none := lastLookup_none_of_names hnames (by decide)
    have n3 : lastLookup dA0 "path" = none := lastLookup_none_of_names hnames (by decide)
    have n4 : lastLookup dA0 "query" = none := lastLookup_none_of_names hnames (by decide)
    have n5 : lastLookup dA0 "fragment" = none := lastLookup_none_of_names hnames (by decide)
    rcases hQsum with ⟨csQ, hr3, hdQ2⟩ | ⟨hra, hdQ2⟩
    · rcases hFsum with ⟨csF, hraF, hdF2⟩ | ⟨hraF, hdF2⟩
      · rw [hdU, hd1, hdA, hd2, hdS, hdR1, hdC, hdR2, hdH, hdQ2, hdF2,
          hcsS, hr1, hr2, hr3, hraF]
        simp [lastLookup_cons, lastLookup_append, lastLookup_nil,
          n1, n2, n3, n4, n5, or_none_r, or_none_l, or_some_l]
        apply str_ext
        rw [compose_five]
        simp [mk_data]
      · rw [hdU, hd1, hdA, hd2, hdS, hdR1, hdC, hdR2, hdH, hdQ2, hdF2,
          hcsS, hr1, hr2, hr3, hraF]
        simp [lastLookup_cons, lastLookup_append, lastLookup_nil,
          n1, n2, n3, n4, n5, or_none_r, or_none_l, or_some_l]
        apply str_ext
        rw [compose_five]
        simp [mk_data]
    · rcases hFsum with ⟨csF, hraF, hdF2⟩ | ⟨hraF, hdF2⟩
      · rw [hdU, hd1, hdA, hd2, hdS, hdR1, hdC, hdR2, hdH, hdQ2, hdF2,
          hcsS, hr1, hr2, ← hra, hraF]
        simp [lastLookup_cons, lastLookup_append, lastLookup_nil,
          n1, n2, n3, n4, n5, or_none_r, or_none_l, or_some_l]
        apply str_ext
        rw [compose_five]
        simp [mk_data]
      · rw [hdU, hd1, hdA, hd2, hdS, hdR1, hdC, hdR2, hdH, hdQ2, hdF2,
          hcsS, hr1, hr2, ← hra, hraF]
        simp [lastLookup_cons, lastLookup_append, lastLookup_nil,
          n1, n2, n3, n4, n5, or_none_r, or_none_l, or_some_l]
        apply str_ext
        rw [compose_five]
        simp [mk_data]
  · rcases hQsum with ⟨csQ, hr3, hdQ2⟩ | ⟨hra, hdQ2⟩
    · rcases hFsum with ⟨csF, hraF, hdF2⟩ | ⟨hraF, hdF2⟩
      · rw [hdU, hd1, hdA, hd2, hdS, hdR1, hdC, hdR2, hdH, hdQ2, hdF2,
          hcsS, hr1, hr2, hr3, hraF]
        simp [lastLookup_cons, lastLookup_append, lastLookup_nil,
          or_none_r, or_none_l, or_some_l]
        apply str_ext
        rw [compose_five]
        simp [mk_data]
      · rw [hdU, hd1, hdA, hd2, hdS, hdR1, hdC, hdR2, hdH, hdQ2, hdF2,
          hcsS, hr1, hr2, hr3, hraF]
        simp [lastLookup_cons, lastLookup_append, lastLookup_nil,
          or_none_r, or_none_l, or_some_l]
        apply str_ext
        rw [compose_five]
        simp [mk_data]
    · rcases hFsum with ⟨csF, hraF, hdF2⟩ | ⟨hraF, hdF2⟩
      · rw [hdU, hd1, hdA, hd2, hdS, hdR1, hdC, hdR2, hdH, hdQ2, hdF2,
          hcsS, hr1, hr2, ← hra, hraF]
        simp [lastLookup_cons, lastLookup_append, lastLookup_nil,
          or_none_r, or_none_l, or_some_l]
        apply str_ext
        rw [compose_five]
        simp [mk_data]
      · rw [hdU, hd1, hdA, hd2, hdS, hdR1, hdC, hdR2, hdH, hdQ2, hdF2,
          hcsS, hr1, hr2, ← hra, hraF]
        simp [lastLookup_cons, lastLookup_append, lastLookup_nil,
          or_none_r, or_none_l, or_some_l]
        apply str_ext
        rw [compose_five]
        simp [mk_data]

set_option maxRecDepth 4000000 in
/-- C3.  For every string that is a valid absolute URI — a full match of
the grammar's `URI` rule, expressed as a derivation of the declarative
match relation consuming the whole string — `parse(s, 'URI')` succeeds,
and composing the resulting component dictionary returns `s` itself. -/
theorem parse_compose_roundtrip (s : String)
    (h : ∃ p d, M URI none s.data p [] d) :
    ∃ d, parse s "URI" = .ok d ∧ compose d = s := by
  obtain ⟨pu, du, hu⟩ := h
  have hnl : ('\n' : Char) ∉ s.data := by
    intro hm
    rcases M_chars hu '\n' hm with hin | hhas
    · exact absurd hin (List.not_mem_nil _)
    · exact absurd hhas (by decide)
  have hanch : M (anchored URI) none s.data pu [] ([] ++ (du ++ [])) :=
    M.cat M.bol (M.cat hu (M.eol (Or.inl rfl)))
  have hmem := allM_complete hanch
  have hfind : ruleList.find? (fun e => e.1 == "URI") = some ("URI", URI) := by rfl
  rcases hh : (allM (anchored URI) none s.data).head? with _ | m
  · rw [List.head?_eq_none_iff] at hh
    rw [hh] at hmem
    exact absurd hmem (List.not_mem_nil _)
  · obtain ⟨mp, mr, md⟩ := m
    have hm : (mp, mr, md) ∈ allM (anchored URI) none s.data :=
      List.mem_of_mem_head? (by rw [hh]; rfl)
    have hM2 := allM_sound _ _ _ _ hm
    obtain ⟨pb, rb, db1, db2, hbol, hrest, hdm⟩ := M_cat_inv hM2
    obtain ⟨hpb1, hpb2, hrb, hdb1⟩ := M_bol_inv hbol
    subst hrb
    subst hpb2
    obtain ⟨pv, rv, dv1, dv2, hURIm, heol, hdb2⟩ := M_cat_inv hrest
    obtain ⟨hpv, hrv, hdv2, hor⟩ := M_eol_inv heol
    have hrv0 : rv = [] := by
      rcases hor with h0 | h0
      · exact h0
      · exfalso
        obtain ⟨cs0, hcs0⟩ := M_consumed hURIm
        apply hnl
        rw [hcs0, h0]
        simp
    refine ⟨i2uD (groupdictOf URI md), ?_, ?_⟩
    · simp only [parse, hfind, hh]
    · have hdm2 : md = db1 ++ db2 := hdm
      have hmd : md = dv1 := by
        rw [hdm2, hdb1, hdb2, hdv2]
        simp
      rw [hmd]
      exact URI_reconstruct (show M URI none s.data pv [] dv1 from hrv0 ▸ hURIm)

set_option maxRecDepth 4000000 in
/-- Witness for C3: the concrete absolute URI `a:` (scheme `a`, empty
path), whose full-match derivation is obtained from the enumerated match
by soundness. -/
theorem parse_compose_roundtrip_witness :
    ∃ d, parse "a:" "URI" = .ok d ∧ compose d = "a:" :=
  parse_compose_roundtrip "a:"
    ⟨some ':', [("scheme", "a"), ("path", ""), ("absolute_URI", "a:"), ("URI", "a:")],
      allM_sound URI none "a:".data
        (some ':', [], [("scheme", "a"), ("path", ""), ("absolute_URI", "a:"), ("URI", "a:")])
        (by decide)⟩


/-- C2.  For every component map, `compose` emits, in this order: the
scheme followed by a colon when the scheme is present; two slashes followed
by the authority when the authority is present, presence (not truthiness)
deciding, so an empty authority still yields the marker; the path verbatim
(the empty string when absent, never omitted); a question mark followed by
the query when the query is present, including an empty one; a hash
followed by the fragment when the fragment is present, including an empty
one.  `compose` is a total function into strings: it validates nothing and
cannot fail. -/
theorem compose_emits_in_order (kw : Dict) :
    compose kw =
      (match dGet kw "scheme" with
        | some s => s ++ ":"
        | none => "") ++
      (match dGet kw "authority" with
        | some a => "//" ++ a
        | none => "") ++
      orEmpty (dGet kw "path") ++
      (match dGet kw "query" with
        | some q => "?" ++ q
        | none => "") ++
      (match dGet kw "fragment" with
        | some f => "#" ++ f
        | none => "") := by
  simp only [compose]
  rcases dGet kw "scheme" with _ | s <;>
    rcases dGet kw "authority" with _ | a <;>
    rcases dGet kw "query" with _ | q <;>
    rcases dGet kw "fragment" with _ | f <;>
    simp [String.append_assoc] <;> rfl

/-- C10.  `compose` reads only the nine recognised component names (and in
fact, because `_i2u(locals())` mutates only the snapshot dict and not the
local variables, just the five URI-named ones among them): two keyword
dicts agreeing on the nine names compose identically, so additional
keywords such as `host`, `port` or `userinfo` are accepted and have no
effect, and `compose()` with no arguments returns the empty string. -/
theorem compose_depends_only_on_components :
    (∀ kw kw2 : Dict,
      (∀ k ∈ ["scheme", "authority", "path", "query", "fragment",
              "iauthority", "ipath", "iquery", "ifragment"], dGet kw k = dGet kw2 k) →
      compose kw = compose kw2) ∧
    compose [] = "" := by
  constructor
  · intro kw kw2 h
    simp only [compose,
      h "scheme" (by simp), h "authority" (by simp), h "path" (by simp),
      h "query" (by simp), h "fragment" (by simp)]
  · rfl

/-- Witness for C10: a map with extra keywords `host` and `port` composes
exactly as its restriction to recognised keys. -/
theorem compose_depends_only_on_components_witness :
    compose [("host", some "h"), ("path", some "/p"), ("port", some "80")] =
      compose [("path", some "/p")] :=
  compose_depends_only_on_components.1 _ _ (by decide)

/-! Claims about `resolve`'s branches. -/

/-- The condition under which the target is the reference verbatim, as a
function of the mode: `R['scheme'] and (strict or R['scheme'] != B['scheme'])`. -/
def sameSchemeCond (B R : Dict) : Bool :=
  match dGetItem R "scheme" with
  | .ok rs => truthyOpt rs && (rs == dGet B "scheme")
  | .error _ => false

/-- C5.  The strict and non-strict modes of `resolve` agree whenever the
reference does not carry a non-empty scheme textually equal to the base's
scheme: for a reference without a scheme, or with a different scheme, both
modes take the same branch, so the two results (and stores) coincide.  The
modes can thus differ only for a same-scheme reference. -/
theorem strict_differs_only_on_same_scheme (st : Store) (base ref : PyIn)
    (rp : Bool) (B R : Dict)
    (hB : baseDictOf st base = .ok B) (hR : refDictOf st ref = .ok R)
    (h : sameSchemeCond B R = false) :
    resolve st base ref true rp = resolve st base ref false rp := by
  simp only [resolve, hB, hR]
  by_cases hs : truthyOpt (dGet B "scheme")
  · have hmb : mergeBranch B R true = mergeBranch B R false := by
      simp only [sameSchemeCond] at h
      rcases hgi : dGetItem R "scheme" with e | rs
      · simp [mergeBranch, hgi]
      · simp only [hgi] at h
        rcases hty : truthyOpt rs with _ | _
        · simp [mergeBranch, hgi, hty]
        · simp only [hty, Bool.true_and] at h
          simp [mergeBranch, hgi, hty, h]
    simp [hmb]
  · simp [hs]

set_option maxRecDepth 4000000 in
/-- Witness for C5: strict and non-strict resolution agree for the
scheme-less reference `"g"` against the base `"s:/b/c"`. -/
theorem strict_differs_only_on_same_scheme_witness :
    resolve [] (.str "s:/b/c") (.str "g") true false =
      resolve [] (.str "s:/b/c") (.str "g") false false :=
  strict_differs_only_on_same_scheme [] (.str "s:/b/c") (.str "g") false
    ((parse "s:/b/c" "IRI").toOption.getD []) ((parse "g" "IRI_reference").toOption.getD [])
    (by rfl) (by rfl) (by rfl)

/-- C6.  `resolve` raises the distinct missing-scheme `ValueError` for
every reference whenever the base lacks a scheme: a component-map base
whose `scheme` is absent, `None` or empty raises it with the store
untouched, before any merging; and a string base must match the full `IRI`
grammar, otherwise `resolve` fails with the not-valid error, and even if it
parses, a falsy scheme would raise the missing-scheme error. -/
theorem resolve_missing_scheme_base :
    (∀ (st : Store) (a : Nat) (ref : PyIn) (strict rp : Bool),
      truthyOpt (dGet (readD st a) "scheme") = false →
      resolve st (.ref a) ref strict rp = (.error .expectedIRI, st)) ∧
    (∀ (st : Store) (s : String) (ref : PyIn) (strict rp : Bool),
      matchesAnchored IRI s = false →
      resolve st (.str s) ref strict rp = (.error (.notValid s "IRI"), st)) ∧
    (∀ (st : Store) (s : String) (ref : PyIn) (strict rp : Bool) (B : Dict),
      parse s "IRI" = .ok B → truthyOpt (dGet B "scheme") = false →
      resolve st (.str s) ref strict rp = (.error .expectedIRI, st)) := by
  refine ⟨?_, ?_, ?_⟩
  · intro st a ref strict rp h
    simp [resolve, baseDictOf, dGet_i2uD_scheme, h]
  · intro st s ref strict rp h
    have hf : ruleList.find? (fun e => e.1 == "IRI") = some ("IRI", IRI) := by rfl
    have hnil : allM (anchored IRI) none s.data = [] := by
      simpa [matchesAnchored, List.isEmpty_iff] using h
    have hp : parse s "IRI" = .error (.notValid s "IRI") := by
      simp [parse, hf, hnil]
    simp [resolve, baseDictOf, hp]
  · intro st s ref strict rp B hp h
    simp [resolve, baseDictOf, hp, h]

set_option maxRecDepth 4000000 in
/-- Witness for C6: a dict base without a scheme key raises the
missing-scheme error for a well-formed reference. -/
theorem resolve_missing_scheme_base_witness :
    resolve [[("path", some "/p")]] (.ref 0) (.str "g") true false =
      (.error .expectedIRI, [[("path", some "/p")]]) :=
  resolve_missing_scheme_base.1 [[("path", some "/p")]] 0 (.str "g") true false (by decide)

/-- C4.  For an input string and a rule of the pattern table, `parse`
raises the input-validation `ValueError` (carrying the offending string and
rule) exactly when the string does not match the rule's ground pattern
anchored at both ends (the compiled `'^%(rule)s$'`, with the engine's
dollar semantics); on success it returns the group dictionary of the match
— every named capture of the pattern — with the IRI-to-URI field fold
`_i2u` applied. -/
theorem parse_error_iff_no_anchored_match (s rule : String) (re : RE)
    (hr : ruleList.find? (fun e => e.1 == rule) = some (rule, re)) :
    (parse s rule = .error (.notValid s rule) ↔ matchesAnchored re s = false) ∧
    (∀ d, parse s rule = .ok d →
      ∃ m, (allM (anchored re) none s.data).head? = some m ∧
        d = i2uD (groupdictOf re m.2.2)) := by
  simp only [parse, hr]
  rcases hh : (allM (anchored re) none s.data).head? with _ | m
  · rw [List.head?_eq_none_iff] at hh
    constructor
    · simp [matchesAnchored, hh, List.isEmpty_iff]
    · intro d hd
      simp at hd
  · constructor
    · have hT : matchesAnchored re s = true := by
        cases hl : allM (anchored re) none s.data with
        | nil => rw [hl] at hh; simp at hh
        | cons x xs => simp [matchesAnchored, hl]
      simp [hT]
    · intro d hd
      refine ⟨m, rfl, ?_⟩
      simp only [Except.ok.injEq] at hd
      exact hd.symm

set_option maxRecDepth 4000000 in
/-- Witness for C4: the validation equivalence at the string `"a:b"` and
the rule `URI`. -/
theorem parse_error_iff_no_anchored_match_witness :
    parse "a:b" "URI" = .error (.notValid "a:b" "URI") ↔
      matchesAnchored URI "a:b" = false :=
  (parse_error_iff_no_anchored_match "a:b" "URI" URI (by rfl)).1

/-! The frame property of `resolve` over the store. -/

/-- The cleaning step writes only to the target's address. -/
theorem finishResolve_frame (st : Store) (t : Nat) (rp : Bool) (a : Nat) (ha : a ≠ t) :
    ((finishResolve st t rp).2)[a]? = st[a]? := by
  simp only [finishResolve]
  split
  · rfl
  · rfl
  · simp only [writeD]
    exact List.getElem?_set_ne (fun h => ha h.symm)

/-- C9.  `resolve` never mutates its arguments: both `dict(base)` and
`dict(uriref)` copy into fresh objects before the `_i2u` fold and any field
assignment, and the in-place dot-segment rewrite hits the target, which is
either the fresh reference copy or a fresh merge result — so after every
call (success or error), every dict object that existed before the call,
in particular a dict-supplied base or reference, still holds exactly the
entries it held before. -/
theorem resolve_never_mutates_arguments (st : Store) (base ref : PyIn)
    (strict rp : Bool) (a : Nat) (ha : a < st.length) :
    (resolve st base ref strict rp).2[a]? = st[a]? := by
  rcases hb : baseDictOf st base with e | B
  · simp [resolve, hb]
  · by_cases hs : truthyOpt (dGet B "scheme")
    · rcases hr : refDictOf st ref with e | R
      · simp [resolve, hb, hs, hr]
      · rcases hm : mergeBranch B R strict with e | t
        · simp only [resolve, hb, hs, hr, hm, allocD, Bool.not_true,
            Bool.false_eq_true, if_false]
          exact List.getElem?_append_left ha
        · rcases t with _ | T
          · simp only [resolve, hb, hs, hr, hm, allocD, Bool.not_true,
              Bool.false_eq_true, if_false]
            rw [finishResolve_frame _ _ _ _ (by omega)]
            exact List.getElem?_append_left ha
          · simp only [resolve, hb, hs, hr, hm, allocD, Bool.not_true,
              Bool.false_eq_true, if_false]
            rw [finishResolve_frame _ _ _ _ (by simp; omega)]
            rw [List.getElem?_append_left (by simp; omega)]
            exact List.getElem?_append_left ha
    · simp [resolve, hb, hs]

/-!
The grammar-table construction `format_patterns`.  The three rule groups
are embedded verbatim as template strings (literal braces written with
hexadecimal escapes), and Python's `str.format` named-field substitution is
embedded as `pyFormat`: a doubled brace is a literal brace, `\x7bname\x7d`
is replaced by the bound value (failing when the name is unbound, as
`KeyError`), and a stray brace fails (as `ValueError`); the engine's
auto-numbered empty field is not used by the module and is treated as an
unbound name.  `format_patterns` folds over the concatenation of the
reversed groups, optionally wrapping each rule in a named capture group
`(?P<name>...)` before substitution, exactly as the source does (the
callable-transform override form is out of scope here: the claims concern
capture-group overrides, which are strings).
-/

/-- The left-brace character. -/
def lbrace : Char := Char.ofNat 123

/-- The right-brace character. -/
def rbrace : Char := Char.ofNat 125

/-- A character that is not a brace. -/
def braceFreeC (c : Char) : Bool := !(c = lbrace || c = rbrace)

/-- A brace-free character list. -/
def braceFreeL (l : List Char) : Bool := l.all braceFreeC

mutual

/-- A ground pattern is clean when every left brace opens a bounded
repetition count: digits and commas up to the closing right brace, and no
stray right brace occurs.  Clean patterns contain no `\x7bname\x7d`
placeholder for any rule name (rule names start with a letter). -/
def cleanB : List Char → Bool
  | [] => true
  | c :: rest =>
    if c = lbrace then numTC rest
    else if c = rbrace then false
    else cleanB rest

/-- State of `cleanB` inside a repetition count. -/
def numTC : List Char → Bool
  | [] => false
  | c :: rest =>
    if c = rbrace then cleanB rest
    else if c.isDigit || c == ',' then numTC rest
    else false

end

/-- Split a replacement-field tail at its closing brace: the field name and
the rest; fails on a nested opening brace or a missing close. -/
def splitAtBrace : List Char → Option (List Char × List Char)
  | [] => none
  | c :: rest =>
    if c = rbrace then some ([], rest)
    else if c = lbrace then none
    else (splitAtBrace rest).map (fun nr => (c :: nr.1, nr.2))

/-- Environment of expanded rules (or of capture-group overrides). -/
abbrev FEnv := List (String × String)

/-- Association lookup. -/
def envGet : FEnv → String → Option String
  | [], _ => none
  | e :: rest, k => if e.1 == k then some e.2 else envGet rest k

/-- Association update in place, or append. -/
def envSet : FEnv → String → String → FEnv
  | [], k, v => [(k, v)]
  | e :: rest, k, v => if e.1 == k then (k, v) :: rest else e :: envSet rest k v

/-- `str.format` with named fields bound by `env` (fuel-indexed: the fuel
only bounds recursion depth, every step consumes at least one template
character, so the wrapper's `length + 1` never runs out). -/
def pyFormatF (env : FEnv) : Nat → List Char → Option (List Char)
  | 0, _ => none
  | fuel + 1, t =>
    match t with
    | [] => some []
    | c :: rest =>
      if c = lbrace then
        match rest with
        | [] => none
        | c2 :: rest2 =>
          if c2 = lbrace then (pyFormatF env fuel rest2).map (fun o => lbrace :: o)
          else
            match splitAtBrace rest with
            | none => none
            | some (nm, rest3) =>
              match envGet env (String.mk nm) with
              | none => none
              | some v => (pyFormatF env fuel rest3).map (fun o => v.data ++ o)
      else if c = rbrace then
        match rest with
        | [] => none
        | c2 :: rest2 =>
          if c2 = rbrace then (pyFormatF env fuel rest2).map (fun o => rbrace :: o)
          else none
      else (pyFormatF env fuel rest).map (fun o => c :: o)

/-- `template.format(**env)`. -/
def pyFormat (env : FEnv) (t : List Char) : Option (List Char) :=
  pyFormatF env (t.length + 1) t

mutual

/-- Static template well-formedness relative to a set of available rule
names: every replacement field names an available rule, every literal
doubled brace opens a numeric repetition count closed by a doubled brace,
and no stray brace occurs.  Fuel-indexed like `pyFormatF`. -/
def tmplChk (names : List String) : Nat → List Char → Bool
  | 0, _ => false
  | fuel + 1, t =>
    match t with
    | [] => true
    | c :: rest =>
      if c = lbrace then
        match rest with
        | [] => false
        | c2 :: rest2 =>
          if c2 = lbrace then escChk names fuel rest2
          else
            match splitAtBrace rest with
            | none => false
            | some (nm, rest3) =>
              names.contains (String.mk nm) && tmplChk names fuel rest3
      else if c = rbrace then false
      else tmplChk names fuel rest

/-- State of `tmplChk` inside a doubled-brace literal repetition count. -/
def escChk (names : List String) : Nat → List Char → Bool
  | 0, _ => false
  | fuel + 1, t =>
    match t with
    | [] => false
    | c :: rest =>
      if c = rbrace then
        match rest with
        | [] => false
        | c2 :: rest2 => if c2 = rbrace then tmplChk names fuel rest2 else false
      else if c.isDigit || c == ',' then escChk names fuel rest
      else false

end

/-- `tmplChk` with its canonical sufficient fuel. -/
def tmplOk (names : List String) (t : List Char) : Bool :=
  tmplChk names (t.length + 1) t

/-- `(str).replace(' ', '')` as used on the IPv6 rule template. -/
def stripSpaces (s : String) : String :=
  String.mk (s.data.filter (fun c => !(c = ' ')))

/-- `_common_rules`, templates verbatim. -/
def common_rules : List (String × String) :=
  [("scheme", "[a-zA-Z][a-zA-Z0-9+.-]*"),
   ("port", "[0-9]*"),
   ("IP_literal", "\\[(?:\x7bIPv6address\x7d|\x7bIPvFuture\x7d)\\]"),
   ("IPv6address", stripSpaces
     ("(?:                             (?:\x7bh16\x7d:)\x7b\x7b6\x7d\x7d \x7bls32\x7d" ++
      "|                            :: (?:\x7bh16\x7d:)\x7b\x7b5\x7d\x7d \x7bls32\x7d" ++
      "|                    \x7bh16\x7d?  :: (?:\x7bh16\x7d:)\x7b\x7b4\x7d\x7d \x7bls32\x7d" ++
      "| (?:(?:\x7bh16\x7d:)?     \x7bh16\x7d)? :: (?:\x7bh16\x7d:)\x7b\x7b3\x7d\x7d \x7bls32\x7d" ++
      "| (?:(?:\x7bh16\x7d:)\x7b\x7b,2\x7d\x7d\x7bh16\x7d)? :: (?:\x7bh16\x7d:)\x7b\x7b2\x7d\x7d \x7bls32\x7d" ++
      "| (?:(?:\x7bh16\x7d:)\x7b\x7b,3\x7d\x7d\x7bh16\x7d)? :: (?:\x7bh16\x7d:)      \x7bls32\x7d" ++
      "| (?:(?:\x7bh16\x7d:)\x7b\x7b,4\x7d\x7d\x7bh16\x7d)? ::                 \x7bls32\x7d" ++
      "| (?:(?:\x7bh16\x7d:)\x7b\x7b,5\x7d\x7d\x7bh16\x7d)? ::                 \x7bh16\x7d " ++
      "| (?:(?:\x7bh16\x7d:)\x7b\x7b,6\x7d\x7d\x7bh16\x7d)? ::                      )")),
   ("ls32", "(?:\x7bh16\x7d:\x7bh16\x7d|\x7bIPv4address\x7d)"),
   ("h16", "[0-9A-F]\x7b\x7b1,4\x7d\x7d"),
   ("IPv4address", "(?:\x7bdec_octet\x7d\\.)\x7b\x7b3\x7d\x7d\x7bdec_octet\x7d"),
   ("dec_octet", "(?:25[0-5]|2[0-4][0-9]|[01]?[0-9][0-9]?)"),
   ("IPvFuture", "v[0-9A-F]+\\.(?:\x7bunreserved\x7d|\x7bsub_delims\x7d|:)+"),
   ("unreserved", "[a-zA-Z0-9_.~-]"),
   ("reserved", "(?:\x7bgen_delims\x7d|\x7bsub_delims\x7d)"),
   ("pct_encoded", "%[0-9A-F][0-9A-F]"),
   ("gen_delims", "[:/?#[\\]@]"),
   ("sub_delims", "[!$&'()*+,;=]")]

/-- `_uri_rules`, templates verbatim. -/
def uri_rules : List (String × String) :=
  [("URI_reference", "(?:\x7bURI\x7d|\x7brelative_ref\x7d)"),
   ("URI", "\x7babsolute_URI\x7d(?:\\#\x7bfragment\x7d)?"),
   ("absolute_URI", "\x7bscheme\x7d:\x7bhier_part\x7d(?:\\?\x7bquery\x7d)?"),
   ("relative_ref", "\x7brelative_part\x7d(?:\\?\x7bquery\x7d)?(?:\\#\x7bfragment\x7d)?"),
   ("hier_part",
    "(?://\x7bauthority\x7d\x7bpath_abempty\x7d|\x7bpath_absolute\x7d|\x7bpath_rootless\x7d|\x7bpath_empty\x7d)"),
   ("relative_part",
    "(?://\x7bauthority\x7d\x7bpath_abempty\x7d|\x7bpath_absolute\x7d|\x7bpath_noscheme\x7d|\x7bpath_empty\x7d)"),
   ("authority", "(?:\x7buserinfo\x7d@)?\x7bhost\x7d(?::\x7bport\x7d)?"),
   ("host", "(?:\x7bIP_literal\x7d|\x7bIPv4address\x7d|\x7breg_name\x7d)"),
   ("userinfo", "(?:\x7bunreserved\x7d|\x7bpct_encoded\x7d|\x7bsub_delims\x7d|:)*"),
   ("reg_name", "(?:\x7bunreserved\x7d|\x7bpct_encoded\x7d|\x7bsub_delims\x7d)*"),
   ("path",
    "(?:\x7bpath_abempty\x7d|\x7bpath_absolute\x7d|\x7bpath_noscheme\x7d|\x7bpath_rootless\x7d|\x7bpath_empty\x7d)"),
   ("path_abempty", "(?:/\x7bsegment\x7d)*"),
   ("path_absolute", "/(?:\x7bsegment_nz\x7d(?:/\x7bsegment\x7d)*)?"),
   ("path_noscheme", "\x7bsegment_nz_nc\x7d(?:/\x7bsegment\x7d)*"),
   ("path_rootless", "\x7bsegment_nz\x7d(?:/\x7bsegment\x7d)*"),
   ("path_empty", ""),
   ("segment", "\x7bpchar\x7d*"),
   ("segment_nz", "\x7bpchar\x7d+"),
   ("segment_nz_nc", "(?:\x7bunreserved\x7d|\x7bpct_encoded\x7d|\x7bsub_delims\x7d|@)+"),
   ("query", "(?:\x7bpchar\x7d|/|\\?)*"),
   ("fragment", "(?:\x7bpchar\x7d|/|\\?)*"),
   ("pchar", "(?:\x7bunreserved\x7d|\x7bpct_encoded\x7d|\x7bsub_delims\x7d|:|@)"),
   ("unreserved", "[a-zA-Z0-9._~-]")]

/-- `_iri_rules`, templates verbatim. -/
def iri_rules : List (String × String) :=
  [("IRI_reference", "(?:\x7bIRI\x7d|\x7birelative_ref\x7d)"),
   ("IRI", "\x7babsolute_IRI\x7d(?:\\#\x7bifragment\x7d)?"),
   ("absolute_IRI", "\x7bscheme\x7d:\x7bihier_part\x7d(?:\\?\x7biquery\x7d)?"),
   ("irelative_ref", "(?:\x7birelative_part\x7d(?:\\?\x7biquery\x7d)?(?:\\#\x7bifragment\x7d)?)"),
   ("ihier_part",
    "(?://\x7biauthority\x7d\x7bipath_abempty\x7d|\x7bipath_absolute\x7d|\x7bipath_rootless\x7d|\x7bipath_empty\x7d)"),
   ("irelative_part",
    "(?://\x7biauthority\x7d\x7bipath_abempty\x7d|\x7bipath_absolute\x7d|\x7bipath_noscheme\x7d|\x7bipath_empty\x7d)"),
   ("iauthority", "(?:\x7biuserinfo\x7d@)?\x7bihost\x7d(?::\x7bport\x7d)?"),
   ("iuserinfo", "(?:\x7biunreserved\x7d|\x7bpct_encoded\x7d|\x7bsub_delims\x7d|:)*"),
   ("ihost", "(?:\x7bIP_literal\x7d|\x7bIPv4address\x7d|\x7bireg_name\x7d)"),
   ("ireg_name", "(?:\x7biunreserved\x7d|\x7bpct_encoded\x7d|\x7bsub_delims\x7d)*"),
   ("ipath",
    "(?:\x7bipath_abempty\x7d|\x7bipath_absolute\x7d|\x7bipath_noscheme\x7d|\x7bipath_rootless\x7d|\x7bipath_empty\x7d)"),
   ("ipath_empty", ""),
   ("ipath_rootless", "\x7bisegment_nz\x7d(?:/\x7bisegment\x7d)*"),
   ("ipath_noscheme", "\x7bisegment_nz_nc\x7d(?:/\x7bisegment\x7d)*"),
   ("ipath_absolute", "/(?:\x7bisegment_nz\x7d(?:/\x7bisegment\x7d)*)?"),
   ("ipath_abempty", "(?:/\x7bisegment\x7d)*"),
   ("isegment_nz_nc", "(?:\x7biunreserved\x7d|\x7bpct_encoded\x7d|\x7bsub_delims\x7d|@)+"),
   ("isegment_nz", "\x7bipchar\x7d+"),
   ("isegment", "\x7bipchar\x7d*"),
   ("iquery", "(?:\x7bipchar\x7d|\x7biprivate\x7d|/|\\?)*"),
   ("ifragment", "(?:\x7bipchar\x7d|/|\\?)*"),
   ("ipchar", "(?:\x7biunreserved\x7d|\x7bpct_encoded\x7d|\x7bsub_delims\x7d|:|@)"),
   ("iunreserved", "(?:[a-zA-Z0-9._~-]|\x7bucschar\x7d)"),
   ("iprivate", "[\\uE000-\\uF8FF\\U000F0000-\\U000FFFFD\\U00100000-\\U0010FFFD]"),
   ("ucschar",
    "[\\xA0-\\uD7FF\\uF900-\\uFDCF\\uFDF0-\\uFFEF\\U00010000-\\U0001FFFD\\U00020000-\\U0002FFFD" ++
    "\\U00030000-\\U0003FFFD\\U00040000-\\U0004FFFD\\U00050000-\\U0005FFFD\\U00060000-\\U0006FFFD" ++
    "\\U00070000-\\U0007FFFD\\U00080000-\\U0008FFFD\\U00090000-\\U0009FFFD\\U000A0000-\\U000AFFFD" ++
    "\\U000B0000-\\U000BFFFD\\U000C0000-\\U000CFFFD\\U000D0000-\\U000DFFFD\\U000E1000-\\U000EFFFD]")]

/-- The processing sequence of `format_patterns`:
`_common_rules[::-1] + _uri_rules[::-1] + _iri_rules[::-1]`. -/
def allRules : List (String × String) :=
  common_rules.reverse ++ uri_rules.reverse ++ iri_rules.reverse

/-- The capture-group wrap `'(?P<%s>%s)' % (n, pat)` applied when the rule
has an override. -/
def wrapOv (ov : FEnv) (name : String) (tmpl : String) : String :=
  match envGet ov name with
  | some g => "(?P<" ++ g ++ ">" ++ tmpl ++ ")"
  | none => tmpl

/-- The expansion fold of `format_patterns`: process rules in sequence,
wrapping by override, substituting every already-expanded rule, and storing
the ground pattern under the rule's name. -/
def processRules : List (String × String) → FEnv → FEnv → Option FEnv
  | [], _, env => some env
  | r :: rest, ov, env =>
    match pyFormat env (wrapOv ov r.1 r.2).data with
    | none => none
    | some ground => processRules rest ov (envSet env r.1 (String.mk ground))

/-- `format_patterns(**overrides)` (string-valued capture-group
overrides). -/
def format_patterns (ov : FEnv) : Option FEnv := processRules allRules ov []

/-- `_GROUP_NAMES_BASE`. -/
def GROUP_NAMES_BASE : List String :=
  ["scheme", "port", "IPv6address", "IPv4address", "IPvFuture", "URI_reference",
   "URI", "absolute_URI", "relative_ref", "relative_part", "authority", "host",
   "userinfo", "reg_name", "query", "fragment", "IRI_reference", "IRI",
   "absolute_IRI", "irelative_ref", "irelative_part", "iauthority", "ihost",
   "iuserinfo", "ireg_name", "iquery", "ifragment"]

/-- `DEFAULT_GROUP_NAMES`. -/
def DEFAULT_GROUP_NAMES : FEnv :=
  GROUP_NAMES_BASE.map (fun n => (n, n)) ++
  [("path_abempty", "path"), ("path_absolute", "path"), ("path_noscheme", "path"),
   ("path_rootless", "path"), ("path_empty", "path"),
   ("ipath_abempty", "ipath"), ("ipath_absolute", "ipath"),
   ("ipath_noscheme", "ipath"), ("ipath_rootless", "ipath"),
   ("ipath_empty", "ipath")]

/-- Availability bookkeeping: the key set after a store, mirroring
`envSet`. -/
def keysAfterSet (avail : List String) (n : String) : List String :=
  if avail.contains n then avail else avail ++ [n]

/-- The per-step expansion condition: every rule's template is well formed
and references only rules already processed. -/
def rulesOk : List (String × String) → List String → Bool
  | [], _ => true
  | r :: rest, avail => tmplOk avail r.2.data && rulesOk rest (keysAfterSet avail r.1)

/-- An occurrence of the unresolved placeholder `\x7bname\x7d` in a
pattern. -/
def hasPlaceholder (name : String) (p : String) : Prop :=
  ∃ pre post, p.data = pre ++ lbrace :: (name.data ++ rbrace :: post)

/-- `escChk` with its canonical sufficient fuel. -/
def escOk (names : List String) (t : List Char) : Bool :=
  escChk names (t.length + 1) t


/-- The two brace characters are distinct (decidable facts packaged for
rewriting). -/
@[simp] theorem lbrace_eq_rbrace_iff : (lbrace = rbrace) = False := by
  simp [lbrace, rbrace, Char.ofNat]

@[simp] theorem rbrace_eq_lbrace_iff : (rbrace = lbrace) = False := by
  simp [lbrace, rbrace, Char.ofNat]

theorem splitAtBrace_length : ∀ l nm r, splitAtBrace l = some (nm, r) →
    r.length < l.length := by
  intro l
  induction l with
  | nil => intro nm r h; exact Option.noConfusion h
  | cons c rest ih =>
    intro nm r h
    simp only [splitAtBrace] at h
    by_cases hc : c = rbrace
    · rw [if_pos hc] at h
      simp only [Option.some.injEq, Prod.mk.injEq] at h
      obtain ⟨h1, h2⟩ := h
      subst h2
      simp
    · rw [if_neg hc] at h
      by_cases hc2 : c = lbrace
      · rw [if_pos hc2] at h; exact Option.noConfusion h
      · rw [if_neg hc2] at h
        rcases ho : splitAtBrace rest with _ | nr
        · rw [ho] at h; exact Option.noConfusion h
        · rw [ho] at h
          rcases nr with ⟨nm2, r2⟩
          simp only [Option.map_some', Option.some.injEq, Prod.mk.injEq] at h
          obtain ⟨h1, h2⟩ := h
          subst h2
          have hlt := ih nm2 r2 ho
          simp only [List.length_cons]
          omega

theorem splitAtBrace_append : ∀ l b nm r, splitAtBrace l = some (nm, r) →
    splitAtBrace (l ++ b) = some (nm, r ++ b) := by
  intro l
  induction l with
  | nil => intro b nm r h; exact Option.noConfusion h
  | cons c rest ih =>
    intro b nm r h
    simp only [splitAtBrace] at h
    simp only [List.cons_append, splitAtBrace, List.append_eq]
    by_cases hc : c = rbrace
    · rw [if_pos hc] at h
      rw [if_pos hc]
      simp only [Option.some.injEq, Prod.mk.injEq] at h
      obtain ⟨h1, h2⟩ := h
      subst h1
      subst h2
      rfl
    · rw [if_neg hc] at h
      rw [if_neg hc]
      by_cases hc2 : c = lbrace
      · rw [if_pos hc2] at h; exact Option.noConfusion h
      · rw [if_neg hc2] at h
        rw [if_neg hc2]
        rcases ho : splitAtBrace rest with _ | nr
        · rw [ho] at h; exact Option.noConfusion h
        · rw [ho] at h
          rcases nr with ⟨nm2, r2⟩
          simp only [Option.map_some', Option.some.injEq, Prod.mk.injEq] at h
          obtain ⟨h1, h2⟩ := h
          subst h1
          subst h2
          rw [ih b nm2 r2 ho]
          rfl

theorem chk_fuel : ∀ f1 f2 names t, t.length < f1 → t.length < f2 →
    tmplChk names f1 t = tmplChk names f2 t ∧
    escChk names f1 t = escChk names f2 t := by
  intro f1
  induction f1 with
  | zero => intro f2 names t h1 h2; omega
  | succ k ih =>
    intro f2 names t h1 h2
    rcases f2 with _ | m
    · omega
    rcases t with _ | ⟨c, rest⟩
    · exact ⟨rfl, rfl⟩
    simp only [List.length_cons] at h1 h2
    have hrk : rest.length < k := by omega
    have hrm : rest.length < m := by omega
    constructor
    · by_cases hc : c = lbrace
      · rcases rest with _ | ⟨c2, rest2⟩
        · simp [tmplChk, hc]
        · simp only [List.length_cons] at hrk hrm
          by_cases hc2 : c2 = lbrace
          · simp only [tmplChk, if_pos hc, if_pos hc2]
            exact (ih m names rest2 (by omega) (by omega)).2
          · rcases ho : splitAtBrace (c2 :: rest2) with _ | nr
            · simp [tmplChk, hc, hc2, ho]
            · rcases nr with ⟨nm, rest3⟩
              have hl := splitAtBrace_length _ _ _ ho
              simp only [List.length_cons] at hl
              simp only [tmplChk, if_pos hc, if_neg hc2, ho]
              rw [(ih m names rest3 (by omega) (by omega)).1]
      · by_cases hc3 : c = rbrace
        · simp [tmplChk, hc, hc3]
        · simp only [tmplChk, if_neg hc, if_neg hc3]
          exact (ih m names rest hrk hrm).1
    · by_cases hc : c = rbrace
      · rcases rest with _ | ⟨c2, rest2⟩
        · simp [escChk, hc]
        · simp only [List.length_cons] at hrk hrm
          by_cases hc2 : c2 = rbrace
          · simp only [escChk, if_pos hc, if_pos hc2]
            exact (ih m names rest2 (by omega) (by omega)).1
          · simp [escChk, hc, hc2]
      · by_cases hd : (c.isDigit || c == ',') = true
        · simp only [escChk, if_neg hc, hd, if_true]
          exact (ih m names rest hrk hrm).2
        · simp [escChk, hc, hd]

/-- A character that could legally follow a left brace in a clean pattern:
anything else refutes cleanliness. -/
def notCountChar (c : Char) : Bool := !(decide (c = rbrace) || c.isDigit || c == ',')

@[simp] theorem lbrace_not_digit : lbrace.isDigit = false := by decide

@[simp] theorem lbrace_not_comma : (lbrace == ',') = false := by decide

/-- Concatenating clean patterns stays clean (jointly with the
inside-count state). -/
theorem cleanB_append : ∀ a b,
    (cleanB b = true → cleanB a = true → cleanB (a ++ b) = true) ∧
    (cleanB b = true → numTC a = true → numTC (a ++ b) = true) := by
  intro a
  induction a with
  | nil =>
    intro b
    constructor
    · intro hb _; simpa using hb
    · intro _ h; exact absurd h (by simp [numTC])
  | cons c rest ih =>
    intro b
    constructor
    · intro hb ha
      simp only [cleanB, List.cons_append] at ha ⊢
      by_cases hc : c = lbrace
      · rw [if_pos hc] at ha ⊢
        exact (ih b).2 hb ha
      · rw [if_neg hc] at ha ⊢
        by_cases hc2 : c = rbrace
        · rw [if_pos hc2] at ha; exact absurd ha (by simp)
        · rw [if_neg hc2] at ha ⊢
          exact (ih b).1 hb ha
    · intro hb ha
      simp only [numTC, List.cons_append] at ha ⊢
      by_cases hc : c = rbrace
      · rw [if_pos hc] at ha ⊢
        exact (ih b).1 hb ha
      · rw [if_neg hc] at ha ⊢
        by_cases hd : (c.isDigit || c == ',') = true
        · rw [if_pos hd] at ha ⊢
          exact (ih b).2 hb ha
        · rw [if_neg hd] at ha; exact absurd ha (by simp)

/-- In a clean pattern (in either scanner state), the character after any
left brace is a count character: never a letter, so never the head of a
rule name. -/
theorem clean_no_name_after_lbrace : ∀ pre t c post,
    (cleanB t = true ∨ numTC t = true) → t = pre ++ lbrace :: c :: post →
    notCountChar c = false := by
  intro pre
  induction pre with
  | nil =>
    intro t c post h heq
    subst heq
    rcases h with h | h
    · rw [List.nil_append] at h
      rw [show cleanB (lbrace :: c :: post) = numTC (c :: post) by simp [cleanB]] at h
      simp only [numTC] at h
      by_cases hc : c = rbrace
      · simp [notCountChar, hc]
      · rw [if_neg hc] at h
        by_cases hd : (c.isDigit || c == ',') = true
        · rcases (show c.isDigit = true ∨ (c == ',') = true by simpa using hd) with hdig | hcom
          · simp [notCountChar, hdig]
          · simp [notCountChar, hcom]
        · rw [if_neg hd] at h; exact absurd h (by simp)
    · simp [numTC] at h
  | cons c0 pre' ih =>
    intro t c post h heq
    subst heq
    rcases h with h | h
    · simp only [cleanB, List.cons_append] at h
      by_cases hc : c0 = lbrace
      · rw [if_pos hc] at h
        exact ih _ c post (Or.inr h) rfl
      · rw [if_neg hc] at h
        by_cases hc2 : c0 = rbrace
        · rw [if_pos hc2] at h; exact absurd h (by simp)
        · rw [if_neg hc2] at h
          exact ih _ c post (Or.inl h) rfl
    · simp only [numTC, List.cons_append] at h
      by_cases hc : c0 = rbrace
      · rw [if_pos hc] at h
        exact ih _ c post (Or.inl h) rfl
      · rw [if_neg hc] at h
        by_cases hd : (c0.isDigit || c0 == ',') = true
        · rw [if_pos hd] at h
          exact ih _ c post (Or.inr h) rfl
        · rw [if_neg hd] at h; exact absurd h (by simp)

/-! One-step unfolding equations for the template checker. -/

theorem tmplChk_nil (names : List String) (fuel : Nat) :
    tmplChk names (fuel + 1) [] = true := rfl

theorem tmplChk_default (names : List String) (c : Char) (rest : List Char)
    (fuel : Nat) (hc : ¬ c = lbrace) (hc3 : ¬ c = rbrace) :
    tmplChk names (fuel + 1) (c :: rest) = tmplChk names fuel rest := by
  simp only [tmplChk]
  rw [if_neg hc, if_neg hc3]

theorem tmplChk_esc (names : List String) (c2 : Char) (rest2 : List Char)
    (fuel : Nat) (hc2 : c2 = lbrace) :
    tmplChk names (fuel + 1) (lbrace :: c2 :: rest2) = escChk names fuel rest2 := by
  simp only [tmplChk]
  simp [hc2]

theorem tmplChk_ph (names : List String) (c2 : Char) (rest2 nm rest3 : List Char)
    (fuel : Nat) (hc2 : ¬ c2 = lbrace)
    (ho : splitAtBrace (c2 :: rest2) = some (nm, rest3)) :
    tmplChk names (fuel + 1) (lbrace :: c2 :: rest2) =
      (names.contains (String.mk nm) && tmplChk names fuel rest3) := by
  simp only [tmplChk, if_neg hc2, ho]
  simp

theorem tmplChk_ph_none (names : List String) (c2 : Char) (rest2 : List Char)
    (fuel : Nat) (hc2 : ¬ c2 = lbrace)
    (ho : splitAtBrace (c2 :: rest2) = none) :
    tmplChk names (fuel + 1) (lbrace :: c2 :: rest2) = false := by
  simp only [tmplChk, if_neg hc2, ho]
  simp

theorem tmplChk_lone_lbrace (names : List String) (fuel : Nat) :
    tmplChk names (fuel + 1) [lbrace] = false := by
  simp only [tmplChk]
  simp

theorem tmplChk_rbrace (names : List String) (rest : List Char) (fuel : Nat) :
    tmplChk names (fuel + 1) (rbrace :: rest) = false := by
  simp only [tmplChk]
  simp

theorem escChk_nil (names : List String) (fuel : Nat) :
    escChk names (fuel + 1) [] = false := rfl

theorem escChk_close (names : List String) (c2 : Char) (rest2 : List Char)
    (fuel : Nat) (hc2 : c2 = rbrace) :
    escChk names (fuel + 1) (rbrace :: c2 :: rest2) = tmplChk names fuel rest2 := by
  simp only [escChk]
  simp [hc2]

theorem escChk_digit (names : List String) (c : Char) (rest : List Char)
    (fuel : Nat) (hc : ¬ c = rbrace) (hd : (c.isDigit || c == ',') = true) :
    escChk names (fuel + 1) (c :: rest) = escChk names fuel rest := by
  simp only [escChk]
  rw [if_neg hc, if_pos hd]

/-! Environment lemmas. -/

theorem envGet_mem : ∀ (env : FEnv) (n g : String), envGet env n = some g → (n, g) ∈ env := by
  intro env
  induction env with
  | nil => intro n g h; exact Option.noConfusion h
  | cons e rest ih =>
    intro n g h
    rcases e with ⟨k, v⟩
    simp only [envGet, beq_iff_eq] at h
    by_cases he : k = n
    · rw [if_pos he] at h
      simp only [Option.some.injEq] at h
      subst he
      subst h
      exact List.mem_cons_self _ _
    · rw [if_neg he] at h
      exact List.mem_cons_of_mem _ (ih n g h)

theorem contains_fst_isSome : ∀ (env : FEnv) (n : String),
    (env.map Prod.fst).contains n = true → (envGet env n).isSome = true := by
  intro env
  induction env with
  | nil => intro n h; simp at h
  | cons e rest ih =>
    intro n h
    simp only [envGet]
    by_cases he : e.1 == n
    · rw [if_pos he]; rfl
    · rw [if_neg he]
      apply ih
      simp only [List.map_cons, List.contains_cons, Bool.or_eq_true] at h
      rcases h with h1 | h2
      · exfalso
        apply he
        have hne : n = e.1 := by simpa [beq_iff_eq] using h1
        simp [beq_iff_eq, hne]
      · exact h2

theorem envGet_envSet : ∀ (env : FEnv) (k v n : String),
    envGet (envSet env k v) n = if n = k then some v else envGet env n := by
  intro env
  induction env with
  | nil =>
    intro k v n
    simp only [envSet, envGet, beq_iff_eq]
    by_cases h : n = k
    · rw [if_pos h.symm, if_pos h]
    · rw [if_neg (fun hh => h hh.symm), if_neg h]
  | cons e rest ih =>
    intro k v n
    rcases e with ⟨a, b⟩
    simp only [envSet, beq_iff_eq]
    by_cases hak : a = k
    · rw [if_pos hak]
      simp only [envGet, beq_iff_eq]
      by_cases hnk : n = k
      · rw [if_pos hnk.symm, if_pos hnk]
      · rw [if_neg (fun hh => hnk hh.symm), if_neg hnk]
        rw [if_neg (fun hh : a = n => hnk (hh.symm.trans hak))]
    · rw [if_neg hak]
      simp only [envGet, beq_iff_eq]
      by_cases han : a = n
      · rw [if_pos han]
        have hnk : ¬ n = k := fun hh => hak (han.trans hh)
        rw [if_neg hnk, if_pos han]
      · rw [if_neg han, if_neg han]
        exact ih k v n

theorem keysAfterSet_envSet : ∀ (env : FEnv) (k v : String),
    (envSet env k v).map Prod.fst = keysAfterSet (env.map Prod.fst) k := by
  intro env
  induction env with
  | nil => intro k v; simp [envSet, keysAfterSet]
  | cons e rest ih =>
    intro k v
    rcases e with ⟨a, b⟩
    simp only [envSet, beq_iff_eq, keysAfterSet, List.map_cons, List.contains_cons]
    by_cases hak : a = k
    · rw [if_pos hak]
      have : (k == a) = true := by simp [beq_iff_eq, hak]
      simp [this, hak]
    · rw [if_neg hak]
      have hknea : (k == a) = false := by
        simp only [beq_eq_false_iff_ne, ne_eq]
        exact fun hh => hak hh.symm
      simp only [List.map_cons, hknea, Bool.false_or]
      by_cases hcont : (rest.map Prod.fst).contains k = true
      · rw [if_pos hcont]
        rw [ih k v]
        simp only [keysAfterSet]
        rw [if_pos hcont]
      · rw [if_neg hcont]
        rw [ih k v]
        simp only [keysAfterSet]
        rw [if_neg hcont]
        simp

/-! Canonical-fuel unfolding equations for `tmplOk` and `escOk`. -/

theorem braceFreeC_spec (c : Char) (h : braceFreeC c = true) :
    ¬ c = lbrace ∧ ¬ c = rbrace := by
  simpa [braceFreeC, not_or] using h

theorem tmplOk_nil (names : List String) : tmplOk names [] = true := rfl

theorem tmplOk_default (names : List String) (c : Char) (rest : List Char)
    (hc : ¬ c = lbrace) (hc3 : ¬ c = rbrace) :
    tmplOk names (c :: rest) = tmplOk names rest :=
  tmplChk_default names c rest _ hc hc3

theorem tmplOk_lone_lbrace (names : List String) :
    tmplOk names [lbrace] = false :=
  tmplChk_lone_lbrace names _

theorem tmplOk_rbrace (names : List String) (rest : List Char) :
    tmplOk names (rbrace :: rest) = false :=
  tmplChk_rbrace names rest _

theorem tmplOk_esc (names : List String) (c2 : Char) (rest2 : List Char)
    (hc2 : c2 = lbrace) :
    tmplOk names (lbrace :: c2 :: rest2) = escOk names rest2 := by
  rw [show tmplOk names (lbrace :: c2 :: rest2) =
      escChk names ((c2 :: rest2).length + 1) rest2 from
    tmplChk_esc names c2 rest2 ((c2 :: rest2).length + 1) hc2]
  exact (chk_fuel _ _ names rest2 (by simp only [List.length_cons]; omega) (by omega)).2

theorem tmplOk_ph (names : List String) (c2 : Char) (rest2 nm rest3 : List Char)
    (hc2 : ¬ c2 = lbrace) (ho : splitAtBrace (c2 :: rest2) = some (nm, rest3)) :
    tmplOk names (lbrace :: c2 :: rest2) =
      (names.contains (String.mk nm) && tmplOk names rest3) := by
  rw [show tmplOk names (lbrace :: c2 :: rest2) =
      (names.contains (String.mk nm) &&
        tmplChk names ((c2 :: rest2).length + 1) rest3) from
    tmplChk_ph names c2 rest2 nm rest3 ((c2 :: rest2).length + 1) hc2 ho]
  have hlt := splitAtBrace_length _ _ _ ho
  rw [(chk_fuel ((c2 :: rest2).length + 1) (rest3.length + 1) names rest3
    (by simp only [List.length_cons] at hlt ⊢; omega) (by omega)).1]
  rfl

theorem tmplOk_ph_none (names : List String) (c2 : Char) (rest2 : List Char)
    (hc2 : ¬ c2 = lbrace) (ho : splitAtBrace (c2 :: rest2) = none) :
    tmplOk names (lbrace :: c2 :: rest2) = false :=
  tmplChk_ph_none names c2 rest2 _ hc2 ho

theorem escOk_nil (names : List String) : escOk names [] = false := rfl

theorem escOk_rb_nil (names : List String) : escOk names [rbrace] = false := by
  simp [escOk, escChk]

theorem escOk_close (names : List String) (c2 : Char) (rest2 : List Char)
    (hc2 : c2 = rbrace) :
    escOk names (rbrace :: c2 :: rest2) = tmplOk names rest2 := by
  rw [show escOk names (rbrace :: c2 :: rest2) =
      tmplChk names ((c2 :: rest2).length + 1) rest2 from
    escChk_close names c2 rest2 ((c2 :: rest2).length + 1) hc2]
  exact (chk_fuel _ _ names rest2 (by simp only [List.length_cons]; omega) (by omega)).1

theorem escOk_close_bad (names : List String) (c2 : Char) (rest2 : List Char)
    (hc2 : ¬ c2 = rbrace) :
    escOk names (rbrace :: c2 :: rest2) = false := by
  simp only [escOk, escChk]
  simp [hc2]

theorem escOk_digit (names : List String) (c : Char) (rest : List Char)
    (hc : ¬ c = rbrace) (hd : (c.isDigit || c == ',') = true) :
    escOk names (c :: rest) = escOk names rest :=
  escChk_digit names c rest _ hc hd

theorem escOk_other (names : List String) (c : Char) (rest : List Char)
    (hc : ¬ c = rbrace) (hd : ¬ (c.isDigit || c == ',') = true) :
    escOk names (c :: rest) = false := by
  simp only [escOk, escChk]
  rw [if_neg hc, if_neg hd]

/-- A brace-free prefix does not affect template well-formedness. -/
theorem tmplOk_prepend : ∀ (a t : List Char) (names : List String),
    braceFreeL a = true → tmplOk names (a ++ t) = tmplOk names t := by
  intro a
  induction a with
  | nil => intro t names _; rfl
  | cons c a2 ih =>
    intro t names hbf
    simp only [braceFreeL, List.all_cons, Bool.and_eq_true] at hbf
    obtain ⟨hc, ha⟩ := hbf
    obtain ⟨hc1, hc2⟩ := braceFreeC_spec c hc
    rw [List.cons_append, tmplOk_default names c (a2 ++ t) hc1 hc2]
    exact ih t names ha

/-- Concatenating well-formed templates stays well formed (jointly with the
inside-count state). -/
theorem tmplOk_append : ∀ (n : Nat) (t : List Char), t.length ≤ n →
    ∀ (b : List Char) (names : List String),
    (tmplOk names t = true → tmplOk names b = true → tmplOk names (t ++ b) = true) ∧
    (escOk names t = true → tmplOk names b = true → escOk names (t ++ b) = true) := by
  intro n
  induction n with
  | zero =>
    intro t ht b names
    have hnil : t = [] := List.eq_nil_of_length_eq_zero (Nat.le_zero.mp ht)
    subst hnil
    constructor
    · intro _ hb; simpa using hb
    · intro h _; exact absurd h (by simp [escOk_nil])
  | succ k ih =>
    intro t ht b names
    rcases t with _ | ⟨c, rest⟩
    · constructor
      · intro _ hb; simpa using hb
      · intro h _; exact absurd h (by simp [escOk_nil])
    simp only [List.length_cons] at ht
    constructor
    · intro htk hb
      by_cases hc : c = lbrace
      · subst hc
        rcases rest with _ | ⟨c2, rest2⟩
        · rw [tmplOk_lone_lbrace] at htk
          exact absurd htk (by simp)
        · simp only [List.length_cons] at ht
          by_cases hc2 : c2 = lbrace
          · rw [tmplOk_esc names c2 rest2 hc2] at htk
            simp only [List.cons_append]
            rw [tmplOk_esc names c2 (rest2 ++ b) hc2]
            exact (ih rest2 (by omega) b names).2 htk hb
          · rcases ho : splitAtBrace (c2 :: rest2) with _ | ⟨nm, rest3⟩
            · rw [tmplOk_ph_none names c2 rest2 hc2 ho] at htk
              exact absurd htk (by simp)
            · rw [tmplOk_ph names c2 rest2 nm rest3 hc2 ho] at htk
              simp only [Bool.and_eq_true] at htk
              obtain ⟨hcont, ht3⟩ := htk
              have hlt := splitAtBrace_length _ _ _ ho
              simp only [List.length_cons] at hlt
              simp only [List.cons_append]
              rw [tmplOk_ph names c2 (rest2 ++ b) nm (rest3 ++ b) hc2
                (by simpa using splitAtBrace_append _ b _ _ ho)]
              simp only [Bool.and_eq_true]
              exact ⟨hcont, (ih rest3 (by omega) b names).1 ht3 hb⟩
      · by_cases hc3 : c = rbrace
        · subst hc3
          rw [tmplOk_rbrace] at htk
          exact absurd htk (by simp)
        · rw [tmplOk_default names c rest hc hc3] at htk
          simp only [List.cons_append]
          rw [tmplOk_default names c (rest ++ b) hc hc3]
          exact (ih rest (by omega) b names).1 htk hb
    · intro hek hb
      by_cases hc : c = rbrace
      · subst hc
        rcases rest with _ | ⟨c2, rest2⟩
        · rw [escOk_rb_nil] at hek
          exact absurd hek (by simp)
        · simp only [List.length_cons] at ht
          by_cases hc2 : c2 = rbrace
          · rw [escOk_close names c2 rest2 hc2] at hek
            simp only [List.cons_append]
            rw [escOk_close names c2 (rest2 ++ b) hc2]
            exact (ih rest2 (by omega) b names).1 hek hb
          · rw [escOk_close_bad names c2 rest2 hc2] at hek
            exact absurd hek (by simp)
      · by_cases hd : (c.isDigit || c == ',') = true
        · rw [escOk_digit names c rest hc hd] at hek
          simp only [List.cons_append]
          rw [escOk_digit names c (rest ++ b) hc hd]
          exact (ih rest (by omega) b names).2 hek hb
        · rw [escOk_other names c rest hc hd] at hek
          exact absurd hek (by simp)

/-! Unfolding equations for `pyFormatF`. -/

@[simp] theorem rbrace_not_digit : rbrace.isDigit = false := by decide

@[simp] theorem rbrace_not_comma : (rbrace == ',') = false := by decide

theorem countChar_not_brace (c : Char) (hd : (c.isDigit || c == ',') = true) :
    ¬ c = lbrace ∧ ¬ c = rbrace := by
  rcases (show c.isDigit = true ∨ (c == ',') = true by simpa using hd) with h | h
  · constructor <;> intro he <;> subst he <;> simp_all
  · constructor <;> intro he <;> subst he <;> simp_all

theorem pyF_esc (env : FEnv) (c2 : Char) (rest2 : List Char) (fuel : Nat)
    (hc2 : c2 = lbrace) :
    pyFormatF env (fuel + 1) (lbrace :: c2 :: rest2) =
      (pyFormatF env fuel rest2).map (fun o => lbrace :: o) := by
  simp only [pyFormatF]
  simp [hc2]

theorem pyF_ph (env : FEnv) (c2 : Char) (rest2 nm rest3 : List Char) (v : String)
    (fuel : Nat) (hc2 : ¬ c2 = lbrace)
    (ho : splitAtBrace (c2 :: rest2) = some (nm, rest3))
    (hv : envGet env (String.mk nm) = some v) :
    pyFormatF env (fuel + 1) (lbrace :: c2 :: rest2) =
      (pyFormatF env fuel rest3).map (fun o => v.data ++ o) := by
  simp only [pyFormatF, ho, hv]
  simp [hc2]

theorem pyF_close (env : FEnv) (c2 : Char) (rest2 : List Char) (fuel : Nat)
    (hc2 : c2 = rbrace) :
    pyFormatF env (fuel + 1) (rbrace :: c2 :: rest2) =
      (pyFormatF env fuel rest2).map (fun o => rbrace :: o) := by
  simp only [pyFormatF]
  simp [hc2]

theorem pyF_default (env : FEnv) (c : Char) (rest : List Char) (fuel : Nat)
    (hc : ¬ c = lbrace) (hc3 : ¬ c = rbrace) :
    pyFormatF env (fuel + 1) (c :: rest) =
      (pyFormatF env fuel rest).map (fun o => c :: o) := by
  simp only [pyFormatF]
  rw [if_neg hc, if_neg hc3]

/-- The central expansion lemma: on a well-formed template whose
placeholders are all bound to clean values, `str.format` succeeds and the
result is clean (jointly with the inside-count scanner state). -/
theorem pyFormat_ok : ∀ (fuel : Nat) (t : List Char) (env : FEnv),
    t.length < fuel →
    (∀ n v, envGet env n = some v → cleanB v.data = true) →
    (tmplOk (env.map Prod.fst) t = true →
      ∃ out, pyFormatF env fuel t = some out ∧ cleanB out = true) ∧
    (escOk (env.map Prod.fst) t = true →
      ∃ out, pyFormatF env fuel t = some out ∧ numTC out = true) := by
  intro fuel
  induction fuel with
  | zero => intro t env h; omega
  | succ k ih =>
    intro t env ht henv
    rcases t with _ | ⟨c, rest⟩
    · constructor
      · intro _; exact ⟨[], rfl, rfl⟩
      · intro h; exact absurd h (by simp [escOk_nil])
    simp only [List.length_cons] at ht
    constructor
    · intro htk
      by_cases hc : c = lbrace
      · subst hc
        rcases rest with _ | ⟨c2, rest2⟩
        · rw [tmplOk_lone_lbrace] at htk
          exact absurd htk (by simp)
        · by_cases hc2 : c2 = lbrace
          · rw [tmplOk_esc _ c2 rest2 hc2] at htk
            obtain ⟨out, ho1, ho2⟩ := (ih rest2 env
              (by simp only [List.length_cons] at ht; omega) henv).2 htk
            refine ⟨lbrace :: out, ?_, ?_⟩
            · rw [pyF_esc env c2 rest2 k hc2, ho1]; rfl
            · rw [show cleanB (lbrace :: out) = numTC out from by simp [cleanB]]
              exact ho2
          · rcases ho : splitAtBrace (c2 :: rest2) with _ | ⟨nm, rest3⟩
            · rw [tmplOk_ph_none _ c2 rest2 hc2 ho] at htk
              exact absurd htk (by simp)
            · rw [tmplOk_ph _ c2 rest2 nm rest3 hc2 ho] at htk
              simp only [Bool.and_eq_true] at htk
              obtain ⟨hcont, ht3⟩ := htk
              have hvS := contains_fst_isSome env (String.mk nm) hcont
              rcases hv : envGet env (String.mk nm) with _ | v
              · rw [hv] at hvS; simp at hvS
              · have hclean := henv _ _ hv
                have hlt := splitAtBrace_length _ _ _ ho
                simp only [List.length_cons] at hlt ht
                obtain ⟨out, ho1, ho2⟩ := (ih rest3 env (by omega) henv).1 ht3
                refine ⟨v.data ++ out, ?_, ?_⟩
                · rw [pyF_ph env c2 rest2 nm rest3 v k hc2 ho hv, ho1]; rfl
                · exact (cleanB_append v.data out).1 ho2 hclean
      · by_cases hc3 : c = rbrace
        · subst hc3
          rw [tmplOk_rbrace] at htk
          exact absurd htk (by simp)
        · rw [tmplOk_default _ c rest hc hc3] at htk
          obtain ⟨out, ho1, ho2⟩ := (ih rest env (by omega) henv).1 htk
          refine ⟨c :: out, ?_, ?_⟩
          · rw [pyF_default env c rest k hc hc3, ho1]; rfl
          · rw [show cleanB (c :: out) = cleanB out from by simp [cleanB, hc, hc3]]
            exact ho2
    · intro hek
      by_cases hc : c = rbrace
      · subst hc
        rcases rest with _ | ⟨c2, rest2⟩
        · rw [escOk_rb_nil] at hek
          exact absurd hek (by simp)
        · by_cases hc2 : c2 = rbrace
          · rw [escOk_close _ c2 rest2 hc2] at hek
            obtain ⟨out, ho1, ho2⟩ := (ih rest2 env
              (by simp only [List.length_cons] at ht; omega) henv).1 hek
            refine ⟨rbrace :: out, ?_, ?_⟩
            · rw [pyF_close env c2 rest2 k hc2, ho1]; rfl
            · rw [show numTC (rbrace :: out) = cleanB out from by simp [numTC]]
              exact ho2
          · rw [escOk_close_bad _ c2 rest2 hc2] at hek
            exact absurd hek (by simp)
      · by_cases hd : (c.isDigit || c == ',') = true
        · rw [escOk_digit _ c rest hc hd] at hek
          obtain ⟨hcl, hcr⟩ := countChar_not_brace c hd
          obtain ⟨out, ho1, ho2⟩ := (ih rest env (by omega) henv).2 hek
          refine ⟨c :: out, ?_, ?_⟩
          · rw [pyF_default env c rest k hcl hcr, ho1]; rfl
          · rw [show numTC (c :: out) = numTC out from by
              simp only [numTC]
              rw [if_neg hc, if_pos hd]]
            exact ho2
        · rw [escOk_other _ c rest hc hd] at hek
          exact absurd hek (by simp)

/-- The closing parenthesis of the capture-group wrap is a well-formed
template on its own. -/
theorem tmplOk_rparen (names : List String) : tmplOk names ")".data = true := by
  rw [show (")".data : List Char) = [')'] from rfl]
  rw [tmplOk_default names ')' [] (by decide) (by decide)]
  rfl

/-- The expansion fold succeeds on well-ordered rules with brace-free
overrides, and every stored ground pattern is clean. -/
theorem processRules_ok : ∀ (rules : List (String × String)) (ov env : FEnv),
    (∀ e ∈ ov, braceFreeL e.2.data = true) →
    rulesOk rules (env.map Prod.fst) = true →
    (∀ n v, envGet env n = some v → cleanB v.data = true) →
    ∃ table, processRules rules ov env = some table ∧
      (∀ n v, envGet table n = some v → cleanB v.data = true) := by
  intro rules
  induction rules with
  | nil => intro ov env _ _ henv; exact ⟨env, rfl, henv⟩
  | cons r rest ih =>
    intro ov env hov hrk henv
    simp only [rulesOk, Bool.and_eq_true] at hrk
    obtain ⟨hok, hrest⟩ := hrk
    have hpat : tmplOk (env.map Prod.fst) (wrapOv ov r.1 r.2).data = true := by
      rcases hg : envGet ov r.1 with _ | g
      · simpa [wrapOv, hg] using hok
      · have hgbf : braceFreeL g.data = true := hov _ (envGet_mem ov r.1 g hg)
        simp only [wrapOv, hg]
        have hdata : ("(?P<" ++ g ++ ">" ++ r.2 ++ ")").data
            = ("(?P<".data ++ g.data ++ ">".data) ++ (r.2.data ++ ")".data) := by
          simp [String.data_append, List.append_assoc]
        rw [hdata]
        rw [tmplOk_prepend _ _ _ (by
          simp only [braceFreeL, List.all_append, Bool.and_eq_true]
          refine ⟨⟨by decide, ?_⟩, by decide⟩
          exact hgbf)]
        exact (tmplOk_append r.2.data.length r.2.data le_rfl _ _).1 hok
          (tmplOk_rparen _)
    obtain ⟨out, hout, hclean⟩ := (pyFormat_ok ((wrapOv ov r.1 r.2).data.length + 1)
      (wrapOv ov r.1 r.2).data env (by omega) henv).1 hpat
    have hpf : pyFormat env (wrapOv ov r.1 r.2).data = some out := hout
    have henv2 : ∀ n v, envGet (envSet env r.1 (String.mk out)) n = some v →
        cleanB v.data = true := by
      intro n v hv
      rw [envGet_envSet] at hv
      by_cases hn : n = r.1
      · rw [if_pos hn] at hv
        simp only [Option.some.injEq] at hv
        rw [← hv]
        exact hclean
      · rw [if_neg hn] at hv
        exact henv n v hv
    have hk2 : rulesOk rest ((envSet env r.1 (String.mk out)).map Prod.fst) = true := by
      rw [keysAfterSet_envSet]
      exact hrest
    obtain ⟨table, htab, htc⟩ := ih ov (envSet env r.1 (String.mk out)) hov hk2 henv2
    refine ⟨table, ?_, htc⟩
    simp only [processRules, hpf]
    exact htab

/-- A rule name begins with a character that cannot occur right after a
left brace of a clean pattern. -/
def headNotCount (s : String) : Bool :=
  match s.data with
  | [] => false
  | c :: _ => notCountChar c

set_option maxRecDepth 4000000 in
/-- C8.  Grammar-table expansion terminates (the embedded fold is a total
function) and is complete: for any capture-group overrides whose group
names are brace-free — in particular with no overrides at all, or with
`DEFAULT_GROUP_NAMES` — `format_patterns` returns a table, and no ground
pattern in the table contains an unresolved `\x7bname\x7d` placeholder for
any rule name, because rules are processed in reverse declaration order
with every referenced rule already expanded (the decidable per-step
condition `rulesOk`). -/
theorem format_patterns_no_unresolved_placeholder (ov : FEnv)
    (hov : ∀ e ∈ ov, braceFreeL e.2.data = true) :
    (format_patterns ov).isSome = true ∧
    (∀ table, format_patterns ov = some table →
      ∀ n v, envGet table n = some v →
        ∀ rn, rn ∈ allRules.map Prod.fst → ¬ hasPlaceholder rn v) := by
  have h0 : rulesOk allRules (([] : FEnv).map Prod.fst) = true := by decide
  obtain ⟨table, ht, hc⟩ := processRules_ok allRules ov [] hov h0
    (fun n v hv => Option.noConfusion hv)
  have hfp : format_patterns ov = some table := ht
  constructor
  · rw [hfp]; rfl
  · intro table2 ht2 n v hv rn hrn hplace
    rw [hfp] at ht2
    simp only [Option.some.injEq] at ht2
    subst ht2
    have hcv := hc n v hv
    have hrnOK : (allRules.map Prod.fst).all headNotCount = true := by decide
    have hhead : headNotCount rn = true := List.all_eq_true.mp hrnOK rn hrn
    obtain ⟨pre, post, hsplit⟩ := hplace
    rcases hdata : rn.data with _ | ⟨c0, rnrest⟩
    · rw [show headNotCount rn = false from by simp [headNotCount, hdata]] at hhead
      exact absurd hhead (by simp)
    · rw [hdata] at hsplit
      have hnc := clean_no_name_after_lbrace pre v.data c0 (rnrest ++ rbrace :: post)
        (Or.inl hcv) (by rw [hsplit]; simp)
      rw [show headNotCount rn = notCountChar c0 from by simp [headNotCount, hdata]] at hhead
      rw [hnc] at hhead
      exact absurd hhead (by simp)

set_option maxRecDepth 4000000 in
/-- Witness for C8: the module-level `patterns = format_patterns(**DEFAULT_GROUP_NAMES)`
expansion succeeds (and, via the theorem, is placeholder-free). -/
theorem format_patterns_no_unresolved_placeholder_witness :
    (format_patterns DEFAULT_GROUP_NAMES).isSome = true :=
  (format_patterns_no_unresolved_placeholder DEFAULT_GROUP_NAMES (by decide)).1

set_option maxRecDepth 4000000 in
/-- Witness for C9: a call on dict-supplied base and reference leaves both
stored argument dicts exactly as they were. -/
theorem resolve_never_mutates_arguments_witness :
    ((resolve [[("scheme", some "s"), ("path", some "/x")], [("path", some "y")]]
        (.ref 0) (.ref 1) true false).2[0]? =
      some [("scheme", some "s"), ("path", some "/x")]) ∧
    ((resolve [[("scheme", some "s"), ("path", some "/x")], [("path", some "y")]]
        (.ref 0) (.ref 1) true false).2[1]? = some [("path", some "y")]) :=
  ⟨resolve_never_mutates_arguments _ (.ref 0) (.ref 1) true false 0 (by decide),
   resolve_never_mutates_arguments _ (.ref 0) (.ref 1) true false 1 (by decide)⟩

end RFC
